import Mathlib

/-!
Shallow embedding of the listpack data structure (src/src/lib.rs).

Bytes are modelled as `Nat` (the Rust code operates on `u8`; all byte values
produced by the code are < 256).  The Rust `usize` is modelled as `Nat`; where
the Rust code can overflow (the left shift in `decode_varint`) the truncation
modulo 2^64 is made explicit.  `Vec<u8>` is modelled as `List Nat`; slice
assignments (`copy_from_slice`, `copy_within`, indexed store) are modelled by
`writeAt` / `List.set`, which coincide with the Rust semantics whenever the
write is in bounds (the Rust code would panic otherwise; all reachable states
keep the writes in bounds).
-/

/-- Terminator byte indicating the end of the list data (LP_EOF in the source). -/
def LP_EOF : Nat := 0xFF

/-- Integer encoding tag for 8-bit integers. -/
def LP_ENCODING_INT8 : Nat := 0x01

/-- Integer encoding tag for 16-bit integers. -/
def LP_ENCODING_INT16 : Nat := 0x02

/-- Integer encoding tag for 24-bit integers. -/
def LP_ENCODING_INT24 : Nat := 0x03

/-- Integer encoding tag for 32-bit integers. -/
def LP_ENCODING_INT32 : Nat := 0x04

/-- Integer encoding tag for 64-bit integers. -/
def LP_ENCODING_INT64 : Nat := 0x05

/-- Mask for the lower 7 bits of a varint byte (VARINT_VALUE_MASK). -/
def VARINT_VALUE_MASK : Nat := 0x7F

/-- Continuation flag in the highest bit of a varint byte (VARINT_CONT_MASK). -/
def VARINT_CONT_MASK : Nat := 0x80

/-- Threshold at which a varint must use an additional byte (VARINT_CONT_THRESHOLD). -/
def VARINT_CONT_THRESHOLD : Nat := 0x80

/-- The length-header loop shared by push_front and push_back in the source:
`while v >= VARINT_CONT_THRESHOLD { len_buf[i] = (v as u8 & 0x7F) | 0x80; v >>= 7; }`
followed by the final byte `(v as u8) & 0x7F`.  (`v as u8 & 0x7F` equals
`v &&& 0x7F` because masking with 0x7F only keeps bits that survive the `u8` cast.) -/
def lenHeader (v : Nat) : List Nat :=
  if h : VARINT_CONT_THRESHOLD ≤ v then
    ((v &&& VARINT_VALUE_MASK) ||| VARINT_CONT_MASK) :: lenHeader (v >>> 7)
  else
    [v &&& VARINT_VALUE_MASK]
termination_by v
decreasing_by
  simp only [VARINT_CONT_THRESHOLD] at h
  simp only [Nat.shiftRight_eq_div_pow]
  exact Nat.div_lt_self (by omega) (by norm_num)

/-- Encodes a usize value as a varint, following `Listpack::encode_varint`:
`loop { let byte = (value & 0x7F) as u8; value >>= 7;
        if value == 0 { buf.push(byte); break } else { buf.push(byte | 0x80) } }`. -/
def Listpack.encode_varint (value : Nat) : List Nat :=
  if h : value >>> 7 = 0 then [value &&& VARINT_VALUE_MASK]
  else ((value &&& VARINT_VALUE_MASK) ||| VARINT_CONT_MASK) :: Listpack.encode_varint (value >>> 7)
termination_by value
decreasing_by
  simp only [Nat.shiftRight_eq_div_pow] at h ⊢
  have hv : 0 < value := by
    rcases Nat.eq_zero_or_pos value with h0 | h0
    · exact absurd (by simp [h0]) h
    · exact h0
  exact Nat.div_lt_self hv (by norm_num)

/-- The loop body of `Listpack::decode_varint`.  `i` is the enumeration index,
`shift` the current bit shift, `result` the accumulator (a `usize`, hence the
explicit truncation modulo 2^64 of the shifted summand: in release Rust,
`x << shift` discards the bits shifted beyond the 64-bit width). -/
def decode_varint_aux : List Nat → Nat → Nat → Nat → Option (Nat × Nat)
  | [], _, _, _ => none
  | b :: rest, i, shift, result =>
    if b &&& VARINT_CONT_MASK = 0 then
      some (result ||| ((b &&& VARINT_VALUE_MASK) <<< shift) % 2 ^ 64, i + 1)
    else if shift + 7 > 64 then none
    else
      decode_varint_aux rest (i + 1) (shift + 7)
        (result ||| ((b &&& VARINT_VALUE_MASK) <<< shift) % 2 ^ 64)

/-- Decodes a varint from the provided byte slice (`Listpack::decode_varint`).
Returns `some (value, bytes_read)` or `none` if decoding fails. -/
def Listpack.decode_varint (data : List Nat) : Option (Nat × Nat) :=
  decode_varint_aux data 0 0 0

/-- The exact mathematical value denoted by a 7-bit-per-byte little-endian
digit string (ignoring continuation bits): used to state what an ideal,
non-truncating varint decoder would return. -/
def varintValue : List Nat → Nat
  | [] => 0
  | b :: rest => (b &&& VARINT_VALUE_MASK) + 128 * varintValue rest

/- ### Bit-arithmetic helpers -/

theorem testBit_add_mul_two_pow (a x s j : Nat) (h : a < 2 ^ s) :
    (a + x * 2 ^ s).testBit j = if j < s then a.testBit j else x.testBit (j - s) := by
  rcases Nat.lt_or_ge j s with hj | hj
  · simp only [if_pos hj]
    rw [Nat.testBit_to_div_mod, Nat.testBit_to_div_mod]
    have hs : 2 ^ s = 2 ^ (j + 1) * 2 ^ (s - j - 1) := by
      rw [← pow_add]; congr 1; omega
    have h2 : (a + x * 2 ^ s) / 2 ^ j = a / 2 ^ j + x * 2 ^ (s - j) := by
      have hsplit : (2 : Nat) ^ s = 2 ^ j * 2 ^ (s - j) := by
        rw [← pow_add]; congr 1; omega
      have : x * 2 ^ s = 2 ^ j * (x * 2 ^ (s - j)) := by rw [hsplit]; ring
      rw [this, Nat.add_mul_div_left _ _ (Nat.pos_pow_of_pos j (by omega))]
    rw [h2]
    have hsj : 2 ^ (s - j) = 2 * 2 ^ (s - j - 1) := by
      rw [← pow_succ']; congr 1; omega
    rw [hsj]
    have : a / 2 ^ j + x * (2 * 2 ^ (s - j - 1)) = a / 2 ^ j + 2 * (x * 2 ^ (s - j - 1)) := by ring_nf
    rw [this, Nat.add_mul_mod_self_left]
  · simp only [if_neg (by omega : ¬ j < s)]
    rw [Nat.testBit_to_div_mod, Nat.testBit_to_div_mod]
    have h2 : (a + x * 2 ^ s) / 2 ^ j = x / 2 ^ (j - s) := by
      have hj' : 2 ^ j = 2 ^ s * 2 ^ (j - s) := by rw [← pow_add]; congr 1; omega
      rw [hj', ← Nat.div_div_eq_div_mul]
      congr 1
      rw [Nat.mul_comm, Nat.add_mul_div_left _ _ (Nat.pos_pow_of_pos s (by omega)),
        Nat.div_eq_of_lt h, Nat.zero_add]
    rw [h2]

theorem lor_disjoint (a x s : Nat) (h : a < 2 ^ s) : a ||| x * 2 ^ s = a + x * 2 ^ s := by
  apply Nat.eq_of_testBit_eq
  intro j
  rw [Nat.testBit_or, testBit_add_mul_two_pow a x s j h]
  rcases Nat.lt_or_ge j s with hj | hj
  · have hns : ¬ s ≤ j := by omega
    have hx : (x * 2 ^ s).testBit j = false := by
      rw [← Nat.shiftLeft_eq, Nat.testBit_shiftLeft]
      simp [hns]
    simp [hx, hj]
  · have ha : a.testBit j = false :=
      Nat.testBit_lt_two_pow (Nat.lt_of_lt_of_le h (Nat.pow_le_pow_right (by omega) hj))
    have hnj : ¬ j < s := by omega
    have hx : (x * 2 ^ s).testBit j = x.testBit (j - s) := by
      rw [← Nat.shiftLeft_eq, Nat.testBit_shiftLeft]
      simp [hj]
    simp [hx, ha, hnj]

theorem and_127_eq_mod (b : Nat) : b &&& 127 = b % 128 := by
  have h := Nat.and_pow_two_sub_one_eq_mod b 7
  norm_num at h
  exact h

theorem and_128_of_add (a : Nat) (h : a < 128) : (a + 128) &&& 128 ≠ 0 := by
  intro hz
  have ha : (a + 128).testBit 7 = true := by
    rw [Nat.testBit_to_div_mod]
    have h1 : (a + 128) / 2 ^ 7 = 1 := by
      have h2 : (2 : Nat) ^ 7 = 128 := by norm_num
      rw [h2]; omega
    rw [h1]
    decide
  have h128 : (128 : Nat).testBit 7 = true := by decide
  have hb := Nat.testBit_and (a + 128) 128 7
  rw [hz, ha, h128] at hb
  simp at hb

theorem and_128_of_lt (b : Nat) (h : b < 128) : b &&& 128 = 0 := by
  apply Nat.eq_of_testBit_eq
  intro j
  simp only [Nat.testBit_and, Nat.zero_testBit]
  rcases Nat.lt_or_ge j 7 with hj | hj
  · have h128 : (128 : Nat).testBit j = false := by
      interval_cases j <;> decide
    simp [h128]
  · have hb : b.testBit j = false :=
      Nat.testBit_lt_two_pow (Nat.lt_of_lt_of_le (by omega) (Nat.pow_le_pow_right (by omega) hj))
    simp [hb]

theorem mul_pow_mod_64 (c s : Nat) (h : s ≤ 64) : c * 2 ^ s % 2 ^ 64 = c % 2 ^ (64 - s) * 2 ^ s := by
  have h64 : (2 : Nat) ^ 64 = 2 ^ (64 - s) * 2 ^ s := by rw [← pow_add]; congr 1; omega
  rw [h64, Nat.mul_mod_mul_right]

/- ### List-buffer primitives -/

/-- Overwrite the bytes of `d` at positions `[p, p + src.length)` with `src`,
modelling Rust slice assignment (`d[p..p+src.len()].copy_from_slice(src)`).
Coincides with Rust exactly when `p + src.length ≤ d.length` (otherwise Rust
panics; the invariant keeps all writes in bounds). -/
def writeAt (d : List Nat) (p : Nat) (src : List Nat) : List Nat :=
  d.take p ++ src ++ d.drop (p + src.length)

/-- The byte slice `d[a..b]`. -/
def sliceL (d : List Nat) (a b : Nat) : List Nat :=
  (d.drop a).take (b - a)

/-- Rust's `d.copy_within(s..e, dest)`: copy the bytes `d[s..e]` to position
`dest` (memmove semantics: the source bytes are read from the original list). -/
def copyWithin (d : List Nat) (s e dest : Nat) : List Nat :=
  writeAt d dest (sliceL d s e)

/- ### The Listpack structure and its operations -/

/-- A memory-efficient list of byte strings using varint-based serialization
(struct `Listpack` in the source). -/
structure Listpack where
  data : List Nat
  head : Nat
  tail : Nat
  num_entries : Nat
deriving Repr, DecidableEq

/-- Creates a new empty Listpack with default initial capacity
(`Listpack::new`). -/
def Listpack.new : Listpack :=
  let cap := 1024
  let data := List.replicate cap 0
  let head := cap / 2
  { data := data.set head LP_EOF
    head := head
    tail := head + 1
    num_entries := 0 }

/-- Returns the number of entries in the list (`Listpack::len`). -/
def Listpack.len (lp : Listpack) : Nat := lp.num_entries

/-- Returns true if the list contains no entries (`Listpack::is_empty`). -/
def Listpack.isEmptyLp (lp : Listpack) : Prop := lp.num_entries = 0

/-- `Listpack::grow_and_center`: ensure there is enough space to insert
`extra` bytes by growing and re-centering the internal buffer if necessary. -/
def Listpack.grow_and_center (lp : Listpack) (extra : Nat) : Listpack :=
  let used := lp.tail - lp.head
  let need := used + extra + 1
  if extra ≤ lp.head ∧ extra < lp.data.length - lp.tail then lp
  else
    let growth_factor := if 1000 < lp.len then 2 else 3
    let new_cap := max (max lp.len 1 * growth_factor) (need * 2)
    let new_data := List.replicate new_cap 0
    let new_head := (new_cap - used) / 2
    { data := writeAt new_data new_head (sliceL lp.data lp.head lp.tail)
      head := new_head
      tail := new_head + used
      num_entries := lp.num_entries }

/-- `Listpack::push_front`: insert an element at the front of the list.
Returns the success flag together with the updated state.  The inlined
length-header loop is `lenHeader`. -/
def Listpack.push_front (lp : Listpack) (value : List Nat) : Bool × Listpack :=
  let len_bytes := lenHeader value.length
  let extra := len_bytes.length + value.length
  let lp := lp.grow_and_center extra
  let h := lp.head - extra
  (true,
    { data := writeAt lp.data h (len_bytes ++ value)
      head := h
      tail := lp.tail
      num_entries := lp.num_entries + 1 })

/-- `Listpack::push_back`: insert a value at the back of the list: overwrite
the terminator, write length + value, then reinsert the terminator. -/
def Listpack.push_back (lp : Listpack) (value : List Nat) : Bool × Listpack :=
  let len_bytes := lenHeader value.length
  let extra := len_bytes.length + value.length
  let lp := lp.grow_and_center extra
  let term_pos := lp.tail - 1
  let data := writeAt lp.data term_pos (len_bytes ++ value)
  let new_term := term_pos + extra
  (true,
    { data := data.set new_term LP_EOF
      head := lp.head
      tail := new_term + 1
      num_entries := lp.num_entries + 1 })

/- ### Integer entry encoding -/

/-- Little-endian bytes of a natural number, fixed width `w`
(the value is taken modulo 2^(8w), as `to_le_bytes` does). -/
def leBytes : Nat → Nat → List Nat
  | 0, _ => []
  | w + 1, n => n % 256 :: leBytes w (n / 256)

/-- The natural number denoted by a little-endian byte string
(`from_le_bytes` on unsigned bytes). -/
def fromLe : List Nat → Nat
  | [] => 0
  | b :: rest => b + 256 * fromLe rest

/-- Reinterpret a `w`-byte unsigned value as a signed two's-complement
integer (the `as iN`/`iN::from_le_bytes` signed reinterpretation). -/
def asSigned (w : Nat) (n : Nat) : Int :=
  if n < 2 ^ (8 * w - 1) then (n : Int) else (n : Int) - 2 ^ (8 * w)

/-- The little-endian bytes of the `w`-byte two's-complement representation
of the signed integer `v` (`(v as iW).to_le_bytes()`). -/
def leBytesOfInt (w : Nat) (v : Int) : List Nat :=
  leBytes w (v % (2 ^ (8 * w))).toNat

/-- The tagged buffer built inside `Listpack::push_integer`: choose the
smallest encoding by the source's cascade of range tests. -/
def Listpack.encode_int (value : Int) : List Nat :=
  if -128 ≤ value ∧ value ≤ 127 then
    LP_ENCODING_INT8 :: leBytesOfInt 1 value
  else if -32768 ≤ value ∧ value ≤ 32767 then
    LP_ENCODING_INT16 :: leBytesOfInt 2 value
  else if -(2 ^ 23) ≤ value ∧ value ≤ 2 ^ 23 - 1 then
    LP_ENCODING_INT24 :: (leBytesOfInt 8 value).take 3
  else if -(2 ^ 31) ≤ value ∧ value ≤ 2 ^ 31 - 1 then
    LP_ENCODING_INT32 :: leBytesOfInt 4 value
  else
    LP_ENCODING_INT64 :: leBytesOfInt 8 value

/-- `Listpack::push_integer`: push an integer, choosing the smallest encoding
automatically, then delegate to push_back. -/
def Listpack.push_integer (lp : Listpack) (value : Int) : Bool × Listpack :=
  lp.push_back (Listpack.encode_int value)

/-- `Listpack::decode_integer`: decode an integer entry from its encoded
bytes (dispatch on the tag byte; the 24-bit case sign-extends byte 2's high
bit into a fourth byte before the 32-bit signed reinterpretation). -/
def Listpack.decode_integer (data : List Nat) : Option Int :=
  match data with
  | [] => none
  | tag :: rest =>
    if tag = LP_ENCODING_INT8 then
      if rest.length < 1 then none
      else some (asSigned 1 (rest.getD 0 0))
    else if tag = LP_ENCODING_INT16 then
      if rest.length < 2 then none
      else some (asSigned 2 (fromLe (rest.take 2)))
    else if tag = LP_ENCODING_INT24 then
      if rest.length < 3 then none
      else
        let ext : Nat := if rest.getD 2 0 &&& 0x80 ≠ 0 then 0xFF else 0
        some (asSigned 4 (fromLe (rest.take 3 ++ [ext])))
    else if tag = LP_ENCODING_INT32 then
      if rest.length < 4 then none
      else some (asSigned 4 (fromLe (rest.take 4)))
    else if tag = LP_ENCODING_INT64 then
      if rest.length < 8 then none
      else some (asSigned 8 (fromLe (rest.take 8)))
    else none

/-- `Listpack::pop_front`: remove and return the first element. -/
def Listpack.pop_front (lp : Listpack) : Option (List Nat) × Listpack :=
  if lp.num_entries = 0 then (none, lp)
  else
    match Listpack.decode_varint (lp.data.drop lp.head) with
    | none => (none, lp)
    | some (len, consumed) =>
      let start := lp.head + consumed
      let slice := (lp.data.drop start).take len
      (some slice,
        { data := lp.data
          head := lp.head + consumed + len
          tail := lp.tail
          num_entries := lp.num_entries - 1 })

/- ### Consumed-byte positivity (needed for the scan loops' termination) -/

theorem decode_varint_aux_consumed :
    ∀ (bs : List Nat) (i shift result v c : Nat),
      decode_varint_aux bs i shift result = some (v, c) → i < c := by
  intro bs
  induction bs with
  | nil => intro i shift result v c h; simp [decode_varint_aux] at h
  | cons b rest ih =>
    intro i shift result v c h
    simp only [decode_varint_aux] at h
    by_cases hc : b &&& VARINT_CONT_MASK = 0
    · simp only [hc, if_pos rfl] at h
      simp only [if_true] at h
      cases h with
      | refl => omega
    · rw [if_neg hc] at h
      by_cases hs : shift + 7 > 64
      · rw [if_pos hs] at h; cases h
      · rw [if_neg hs] at h
        have := ih (i + 1) (shift + 7) _ v c h
        omega

theorem decode_varint_consumed {bs : List Nat} {v c : Nat}
    (h : Listpack.decode_varint bs = some (v, c)) : 0 < c :=
  decode_varint_aux_consumed bs 0 0 0 v c h

/- ### Index-based scans -/

/-- The scan loop of `Listpack::get`:
`while pos < tail && data[pos] != LP_EOF { decode; if curr == index return; advance }`. -/
def getLoop (data : List Nat) (tailv index pos curr : Nat) : Option (List Nat) :=
  if hc : pos < tailv ∧ data.getD pos 0 ≠ LP_EOF then
    match h : Listpack.decode_varint (data.drop pos) with
    | none => none
    | some (len, consumed) =>
      if curr = index then some ((data.drop (pos + consumed)).take len)
      else getLoop data tailv index (pos + consumed + len) (curr + 1)
  else none
termination_by tailv - pos
decreasing_by
  have := decode_varint_consumed h
  omega

/-- `Listpack::get`: retrieve the element at the specified index, if present. -/
def Listpack.get (lp : Listpack) (index : Nat) : Option (List Nat) :=
  if lp.num_entries ≤ index then none
  else getLoop lp.data lp.tail index lp.head 0

/-- `Listpack::front`. -/
def Listpack.front (lp : Listpack) : Option (List Nat) := lp.get 0

/-- `Listpack::back`. -/
def Listpack.back (lp : Listpack) : Option (List Nat) :=
  if lp.num_entries = 0 then none else lp.get (lp.num_entries - 1)

/-- The scan loop of `Listpack::remove`: locate the entry with ordinal
`index`; return its byte range `[start, end)` when found, `none` when the
loop exits (terminator reached, bounds exceeded or decode failure — all of
which make `remove` return false without mutating). -/
def removeLoop (data : List Nat) (tailv index i curr : Nat) : Option (Nat × Nat) :=
  if hc : i < tailv ∧ data.getD i 0 ≠ LP_EOF then
    match h : Listpack.decode_varint (data.drop i) with
    | none => none
    | some (len, consumed) =>
      if curr = index then some (i, i + consumed + len)
      else removeLoop data tailv index (i + consumed + len) (curr + 1)
  else none
termination_by tailv - i
decreasing_by
  have := decode_varint_consumed h
  omega

/-- `Listpack::remove`: remove the element at the specified index; returns
whether removal happened, together with the updated state. -/
def Listpack.remove (lp : Listpack) (index : Nat) : Bool × Listpack :=
  if lp.num_entries ≤ index then (false, lp)
  else
    match removeLoop lp.data lp.tail index lp.head 0 with
    | none => (false, lp)
    | some (s, e) =>
      let data := copyWithin lp.data e lp.tail s
      let tail := lp.tail - (e - s)
      let data := if 0 < tail then data.set (tail - 1) LP_EOF else data
      (true,
        { data := data
          head := lp.head
          tail := tail
          num_entries := lp.num_entries - 1 })

/-- The scan loop of `Listpack::pop_back`: walk the entries from `head`,
remembering the start (`last_pos`) and header size (`last_header`) of the
most recent entry, until the terminator or `tail` is reached.  Returns
`none` when a decode fails mid-scan (pop_back then returns `None`). -/
def popBackLoop (data : List Nat) (tailv pos last_pos last_header : Nat) :
    Option (Nat × Nat) :=
  if hc : pos < tailv then
    if data.getD pos 0 = LP_EOF then some (last_pos, last_header)
    else
      match h : Listpack.decode_varint (data.drop pos) with
      | none => none
      | some (len, header) => popBackLoop data tailv (pos + header + len) pos header
  else some (last_pos, last_header)
termination_by tailv - pos
decreasing_by
  have := decode_varint_consumed h
  omega

/-- `Listpack::pop_back`: remove and return the last element.  The source
unwraps the final decode (it panics if that decode fails); in every state
where `pop_back` is used below that decode succeeds, and the model returns
`none` in the unreachable failure case. -/
def Listpack.pop_back (lp : Listpack) : Option (List Nat) × Listpack :=
  if lp.num_entries = 0 then (none, lp)
  else
    match popBackLoop lp.data lp.tail lp.head lp.head 0 with
    | none => (none, lp)
    | some (last_pos, last_header) =>
      match Listpack.decode_varint (lp.data.drop last_pos) with
      | none => (none, lp)
      | some (len, _) =>
        let start := last_pos + last_header
        let slice := (lp.data.drop start).take len
        let e := start + len
        let data := copyWithin lp.data e lp.tail last_pos
        let tail := lp.tail - (e - last_pos)
        let data := if 0 < tail then data.set (tail - 1) LP_EOF else data
        (some slice,
          { data := data
            head := lp.head
            tail := tail
            num_entries := lp.num_entries - 1 })

/-- `Listpack::clear`: reset to the initial state, keeping the arena. -/
def Listpack.clear (lp : Listpack) : Listpack :=
  let cap := lp.data.length
  let head := cap / 2
  { data := lp.data.set head LP_EOF
    head := head
    tail := head + 1
    num_entries := 0 }

/- ### Iterator -/

/-- Iterator over Listpack elements (struct `ListpackIter`; the `end` field
is called `endPos` because `end` is reserved in Lean). -/
structure ListpackIter where
  data : List Nat
  pos : Nat
  endPos : Nat
deriving Repr, DecidableEq

/-- `Listpack::iter`: a forward iterator over the live region. -/
def Listpack.iter (lp : Listpack) : ListpackIter :=
  { data := lp.data, pos := lp.head, endPos := lp.tail }

/-- `Iterator::next` for `ListpackIter`. -/
def ListpackIter.next (it : ListpackIter) : Option (List Nat) × ListpackIter :=
  if it.endPos ≤ it.pos ∨ it.data.getD it.pos 0 = LP_EOF then (none, it)
  else
    match Listpack.decode_varint (it.data.drop it.pos) with
    | none => (none, it)
    | some (len, consumed) =>
      let start := it.pos + consumed
      (some ((it.data.drop start).take len), { it with pos := start + len })

/-- `Iterator::size_hint` for `ListpackIter`. -/
def ListpackIter.size_hint (it : ListpackIter) : Nat × Option Nat :=
  (it.endPos - it.pos, some (it.endPos - it.pos))

/-- The number of elements the forward iterator will yield from its current
position (iterating `next` until it returns `none`). -/
def iterYieldCount (data : List Nat) (pos endPos : Nat) : Nat :=
  if hc : pos < endPos ∧ data.getD pos 0 ≠ LP_EOF then
    match h : Listpack.decode_varint (data.drop pos) with
    | none => 0
    | some (len, consumed) => 1 + iterYieldCount data (pos + consumed + len) endPos
  else 0
termination_by endPos - pos
decreasing_by
  have := decode_varint_consumed h
  omega

/-- The backward scan in `DoubleEndedIterator::next_back`:
`while i > 0 && (data[i] & VARINT_CONT_MASK) != 0 { i -= 1 }`. -/
def backScan (data : List Nat) : Nat → Nat
  | 0 => 0
  | i + 1 => if data.getD (i + 1) 0 &&& VARINT_CONT_MASK ≠ 0 then backScan data i else i + 1

/-- `DoubleEndedIterator::next_back` for `ListpackIter`. -/
def ListpackIter.next_back (it : ListpackIter) : Option (List Nat) × ListpackIter :=
  if it.endPos ≤ it.pos then (none, it)
  else
    let i := backScan it.data (it.endPos - 2)
    match Listpack.decode_varint ((it.data.drop i).take (it.endPos - i)) with
    | none => (none, it)
    | some (len, consumed) =>
      let start := i + consumed
      (some ((it.data.drop start).take len), { it with endPos := i })

/- ### Varint codec lemmas -/

theorem pow_add7 (s : Nat) : (2 : Nat) ^ (s + 7) = 128 * 2 ^ s := by
  rw [pow_add, Nat.mul_comm]
  norm_num

theorem shiftRight7_eq (v : Nat) : v >>> 7 = v / 128 := by
  rw [Nat.shiftRight_eq_div_pow]

theorem lenHeader_eq_encode_varint (v : Nat) : lenHeader v = Listpack.encode_varint v := by
  induction v using Nat.strong_induction_on with
  | _ v ih =>
    unfold lenHeader Listpack.encode_varint
    by_cases h : VARINT_CONT_THRESHOLD ≤ v
    · have h' : 128 ≤ v := h
      have hne : ¬ v >>> 7 = 0 := by rw [shiftRight7_eq]; omega
      rw [dif_pos h, dif_neg hne, ih (v >>> 7) (by rw [shiftRight7_eq]; omega)]
    · have h' : ¬ 128 ≤ v := h
      have hz : v >>> 7 = 0 := by rw [shiftRight7_eq]; omega
      rw [dif_neg h, dif_pos hz]

theorem lenHeader_lt_128 (v : Nat) (h : v < 128) : lenHeader v = [v] := by
  unfold lenHeader
  rw [dif_neg (show ¬ VARINT_CONT_THRESHOLD ≤ v from by simp only [VARINT_CONT_THRESHOLD]; omega)]
  simp only [VARINT_VALUE_MASK]
  norm_num [and_127_eq_mod, Nat.mod_eq_of_lt h]

theorem lenHeader_ge_128 (v : Nat) (h : 128 ≤ v) :
    lenHeader v = (v % 128 + 128) :: lenHeader (v / 128) := by
  conv_lhs => unfold lenHeader
  rw [dif_pos (show VARINT_CONT_THRESHOLD ≤ v from h)]
  have hb : (v &&& VARINT_VALUE_MASK) ||| VARINT_CONT_MASK = v % 128 + 128 := by
    simp only [VARINT_VALUE_MASK, VARINT_CONT_MASK]
    norm_num [and_127_eq_mod]
    have := lor_disjoint (v % 128) 1 7 (by norm_num; omega)
    norm_num at this
    omega
  rw [hb, shiftRight7_eq]

theorem lenHeader_length_pos (v : Nat) : 0 < (lenHeader v).length := by
  rcases Nat.lt_or_ge v 128 with h | h
  · rw [lenHeader_lt_128 v h]; simp
  · rw [lenHeader_ge_128 v h]; simp

/-- The first byte of a length header is the terminator byte 0xFF exactly when
the encoded length is at least 128 and congruent to 127 modulo 128. -/
theorem lenHeader_headD (v : Nat) :
    (lenHeader v).headD 0 = if v < 128 then v else v % 128 + 128 := by
  rcases Nat.lt_or_ge v 128 with h | h
  · rw [lenHeader_lt_128 v h]; simp [h]
  · rw [lenHeader_ge_128 v h]
    simp [show ¬ v < 128 by omega]

theorem decode_aux_lenHeader :
    ∀ (M : Nat) (rest : List Nat) (i s a : Nat),
      M * 2 ^ s < 2 ^ 64 → a < 2 ^ s →
      decode_varint_aux (lenHeader M ++ rest) i s a =
        some (a + M * 2 ^ s, i + (lenHeader M).length) := by
  intro M
  induction M using Nat.strong_induction_on with
  | _ M ih =>
    intro rest i s a hM ha
    rcases Nat.lt_or_ge M 128 with h | h
    · rw [lenHeader_lt_128 M h]
      simp only [List.cons_append, List.nil_append, decode_varint_aux]
      have hm64 : M * 2 ^ s < 2 ^ 64 := hM
      have hand : M &&& VARINT_VALUE_MASK = M := by
        simp only [VARINT_VALUE_MASK]
        norm_num [and_127_eq_mod, Nat.mod_eq_of_lt h]
      have hcont : M &&& VARINT_CONT_MASK = 0 := by
        simp only [VARINT_CONT_MASK]
        norm_num [and_128_of_lt M h]
      rw [if_pos hcont, hand, Nat.shiftLeft_eq, Nat.mod_eq_of_lt hm64,
        lor_disjoint a M s ha]
      simp
    · rw [lenHeader_ge_128 M h]
      simp only [List.cons_append, decode_varint_aux]
      have hmod : M % 128 + 128 &&& VARINT_VALUE_MASK = M % 128 := by
        simp only [VARINT_VALUE_MASK]
        norm_num [and_127_eq_mod]
      have hcont : ¬ (M % 128 + 128 &&& VARINT_CONT_MASK = 0) := by
        simp only [VARINT_CONT_MASK]
        norm_num
        exact and_128_of_add (M % 128) (Nat.mod_lt M (by omega))
      have hlt64 : M % 128 * 2 ^ s < 2 ^ 64 :=
        Nat.lt_of_le_of_lt (Nat.mul_le_mul_right _ (Nat.le_trans (Nat.mod_le M 128) (le_refl M))) hM
      have hs7 : ¬ (s + 7 > 64) := by
        have hpow : (2 : Nat) ^ (s + 7) ≤ M * 2 ^ s := by
          rw [pow_add]
          calc (2 : Nat) ^ s * 2 ^ 7 = 2 ^ 7 * 2 ^ s := by ring
          _ ≤ M * 2 ^ s := Nat.mul_le_mul_right _ (by norm_num; omega)
        have : (2 : Nat) ^ (s + 7) < 2 ^ 64 := Nat.lt_of_le_of_lt hpow hM
        have := (Nat.pow_lt_pow_iff_right (by norm_num : 1 < 2)).mp this
        omega
      rw [if_neg hcont, if_neg hs7, hmod, Nat.shiftLeft_eq, Nat.mod_eq_of_lt hlt64,
        lor_disjoint a (M % 128) s ha]
      have hrec := ih (M / 128) (Nat.div_lt_self (by omega) (by norm_num)) rest (i + 1) (s + 7)
        (a + M % 128 * 2 ^ s)
        (by
          have h1 : M / 128 * 2 ^ (s + 7) ≤ M * 2 ^ s := by
            rw [pow_add]
            have : M / 128 * (2 ^ s * 2 ^ 7) = M / 128 * 2 ^ 7 * 2 ^ s := by ring
            rw [this]
            apply Nat.mul_le_mul_right
            have := Nat.div_mul_le_self M 128
            norm_num
            omega
          omega)
        (by
          rw [pow_add7]
          have hm : M % 128 < 128 := Nat.mod_lt M (by omega)
          nlinarith [ha, hm])
      simp only [List.append_eq] at hrec ⊢
      rw [hrec]
      congr 2
      · have hM' : M = 128 * (M / 128) + M % 128 := by omega
        rw [pow_add7]
        nlinarith [hM']
      · simp [List.length_cons]
        omega

theorem decode_varint_lenHeader (L : Nat) (rest : List Nat) (hL : L < 2 ^ 64) :
    Listpack.decode_varint (lenHeader L ++ rest) = some (L, (lenHeader L).length) := by
  unfold Listpack.decode_varint
  rw [decode_aux_lenHeader L rest 0 0 0 (by simpa using hL) (by norm_num)]
  simp

theorem lenHeader_length (v : Nat) : (lenHeader v).length = Nat.log 128 v + 1 := by
  induction v using Nat.strong_induction_on with
  | _ v ih =>
    rcases Nat.lt_or_ge v 128 with h | h
    · rw [lenHeader_lt_128 v h]
      have hlog : Nat.log 128 v = 0 := Nat.log_eq_zero_iff.mpr (Or.inl h)
      simp [hlog]
    · rw [lenHeader_ge_128 v h]
      simp only [List.length_cons]
      rw [ih (v / 128) (Nat.div_lt_self (by omega) (by norm_num))]
      have hlog : Nat.log 128 (v / 128) = Nat.log 128 v - 1 := Nat.log_div_base 128 v
      have hpos : 0 < Nat.log 128 v := Nat.log_pos (by norm_num) h
      omega

theorem decode_encode_varint (v : Nat) (h : v < 2 ^ 64) :
    Listpack.decode_varint (Listpack.encode_varint v) =
      some (v, (Listpack.encode_varint v).length) := by
  rw [← lenHeader_eq_encode_varint]
  have hd := decode_varint_lenHeader v [] h
  simpa using hd

/- ### Failure and truncation behaviour of decode_varint -/

theorem decode_aux_none :
    ∀ (bs : List Nat) (k i a : Nat), k ≤ 9 →
      (decode_varint_aux bs i (7 * k) a = none ↔
        ∀ b ∈ bs.take (10 - k), b &&& VARINT_CONT_MASK ≠ 0) := by
  intro bs
  induction bs with
  | nil =>
    intro k i a hk
    simp [decode_varint_aux]
  | cons b rest ih =>
    intro k i a hk
    simp only [decode_varint_aux]
    by_cases hc : b &&& VARINT_CONT_MASK = 0
    · rw [if_pos hc]
      constructor
      · intro h; cases h
      · intro h
        exfalso
        have hb : b ∈ (b :: rest).take (10 - k) := by
          have h10 : 10 - k = (9 - k) + 1 := by omega
          rw [h10, List.take_succ_cons]
          exact List.mem_cons_self b _
        exact (h b hb) hc
    · rw [if_neg hc]
      by_cases hs : 7 * k + 7 > 64
      · rw [if_pos hs]
        have hk9 : k = 9 := by omega
        subst hk9
        constructor
        · intro _ x hx
          norm_num [List.take_succ_cons] at hx
          rw [hx]
          exact hc
        · intro _; rfl
      · rw [if_neg hs]
        have h77 : 7 * k + 7 = 7 * (k + 1) := by ring
        rw [h77, ih (k + 1) (i + 1) _ (by omega)]
        have htake : (b :: rest).take (10 - k) = b :: rest.take (10 - (k + 1)) := by
          have h10 : 10 - k = (10 - (k + 1)) + 1 := by omega
          rw [h10, List.take_succ_cons]
        rw [htake]
        simp only [List.mem_cons]
        constructor
        · intro h x hx
          rcases hx with hx | hx
          · rw [hx]; exact hc
          · exact h x hx
        · intro h x hx
          exact h x (Or.inr hx)

theorem decode_aux_some :
    ∀ (bs : List Nat) (k i a v n : Nat), k ≤ 9 → a < 2 ^ (7 * k) →
      decode_varint_aux bs i (7 * k) a = some (v, n) →
      ∃ m, n = i + m ∧
        v = a + varintValue (bs.take m) % 2 ^ (64 - 7 * k) * 2 ^ (7 * k) := by
  intro bs
  induction bs with
  | nil =>
    intro k i a v n hk ha h
    simp [decode_varint_aux] at h
  | cons b rest ih =>
    intro k i a v n hk ha h
    simp only [decode_varint_aux] at h
    have hsle : 7 * k ≤ 64 := by omega
    have hacc : a ||| ((b &&& VARINT_VALUE_MASK) <<< (7 * k)) % 2 ^ 64
        = a + (b &&& VARINT_VALUE_MASK) % 2 ^ (64 - 7 * k) * 2 ^ (7 * k) := by
      rw [Nat.shiftLeft_eq, mul_pow_mod_64 _ _ hsle,
        lor_disjoint _ _ _ ha]
    by_cases hc : b &&& VARINT_CONT_MASK = 0
    · rw [if_pos hc, hacc] at h
      refine ⟨1, ?_, ?_⟩
      · cases h; rfl
      · cases h
        simp [varintValue, List.take_succ_cons]
    · rw [if_neg hc] at h
      by_cases hs : 7 * k + 7 > 64
      · rw [if_pos hs] at h; cases h
      · rw [if_neg hs] at h
        rw [hacc] at h
        have h77 : 7 * k + 7 = 7 * (k + 1) := by ring
        rw [h77] at h
        have hblt : b &&& VARINT_VALUE_MASK < 128 := by
          simp only [VARINT_VALUE_MASK]
          norm_num [and_127_eq_mod]
          exact Nat.mod_lt b (by norm_num)
        have hbmod : (b &&& VARINT_VALUE_MASK) % 2 ^ (64 - 7 * k) = b &&& VARINT_VALUE_MASK := by
          apply Nat.mod_eq_of_lt
          have h2 : (128 : Nat) ≤ 2 ^ (64 - 7 * k) := by
            have h3 : (2 : Nat) ^ 7 ≤ 2 ^ (64 - 7 * k) :=
              Nat.pow_le_pow_right (by norm_num) (by omega)
            norm_num at h3
            omega
          omega
        have hacc' : a + (b &&& VARINT_VALUE_MASK) % 2 ^ (64 - 7 * k) * 2 ^ (7 * k)
            < 2 ^ (7 * (k + 1)) := by
          rw [hbmod]
          have hp : (2 : Nat) ^ (7 * (k + 1)) = 128 * 2 ^ (7 * k) := by
            have : 7 * (k + 1) = 7 * k + 7 := by ring
            rw [this, pow_add7]
          rw [hp]
          nlinarith [ha, hblt]
        obtain ⟨m, hn, hv⟩ := ih (k + 1) (i + 1) _ v n (by omega) hacc' h
        refine ⟨m + 1, by omega, ?_⟩
        rw [hv, hbmod]
        have htake : (b :: rest).take (m + 1) = b :: rest.take m := List.take_succ_cons
        rw [htake]
        show a + (b &&& VARINT_VALUE_MASK) * 2 ^ (7 * k)
            + varintValue (rest.take m) % 2 ^ (64 - 7 * (k + 1)) * 2 ^ (7 * (k + 1))
          = a + varintValue (b :: rest.take m) % 2 ^ (64 - 7 * k) * 2 ^ (7 * k)
        have hvv : varintValue (b :: rest.take m)
            = (b &&& VARINT_VALUE_MASK) + 128 * varintValue (rest.take m) := rfl
        rw [hvv]
        set c := b &&& VARINT_VALUE_MASK with hcdef
        set V := varintValue (rest.take m) with hVdef
        set Q := (2 : Nat) ^ (64 - 7 * (k + 1)) with hQdef
        have hQpos : 0 < Q := Nat.pos_pow_of_pos _ (by norm_num)
        have hsplit : (2 : Nat) ^ (64 - 7 * k) = 128 * Q := by
          rw [hQdef]
          have h64 : 64 - 7 * k = (64 - 7 * (k + 1)) + 7 := by omega
          rw [h64, pow_add7]
        rw [hsplit]
        have hkey : (c + 128 * V) % (128 * Q) = c + 128 * (V % Q) := by
          have hdm : V = Q * (V / Q) + V % Q := (Nat.div_add_mod V Q).symm
          have hexp : c + 128 * V = c + 128 * (V % Q) + (128 * Q) * (V / Q) := by
            conv_lhs => rw [hdm]
            ring
          rw [hexp, Nat.add_mul_mod_self_left]
          apply Nat.mod_eq_of_lt
          have hVQ : V % Q < Q := Nat.mod_lt V hQpos
          nlinarith [hblt, hVQ]
        rw [hkey]
        have hexp2 : (7 : Nat) * (k + 1) = 7 * k + 7 := by ring
        rw [hexp2, pow_add7]
        ring

/-- A name for the 10-byte prefix condition: `decode_varint` fails exactly
when no byte among the first ten has its continuation bit clear (either the
input is exhausted first, or the bit shift for an eleventh group would
exceed the 64-bit width). -/
theorem decode_varint_none_iff (bs : List Nat) :
    Listpack.decode_varint bs = none ↔ ∀ b ∈ bs.take 10, b &&& VARINT_CONT_MASK ≠ 0 := by
  have h := decode_aux_none bs 0 0 0 (by norm_num)
  simpa using h

theorem decode_varint_some_val (bs : List Nat) (v n : Nat)
    (h : Listpack.decode_varint bs = some (v, n)) :
    v = varintValue (bs.take n) % 2 ^ 64 := by
  have h2 := decode_aux_some bs 0 0 0 v n (by norm_num) (by norm_num)
  simp only [Nat.mul_zero, pow_zero, Nat.sub_zero, Nat.mul_one] at h2
  obtain ⟨m, hm, hv⟩ := h2 (by simpa using h)
  subst hm
  simpa using hv

/- ### Generic list helpers -/

theorem drop_append_add (l1 l2 : List α) (n : Nat) :
    (l1 ++ l2).drop (l1.length + n) = l2.drop n := by
  induction l1 with
  | nil => simp
  | cons a l1 ih => simpa [Nat.succ_add] using ih

theorem getD_eq_drop_headD (data : List Nat) (pos d : Nat) :
    data.getD pos d = (data.drop pos).headD d := by
  cases h : data.drop pos with
  | nil =>
    have hlen : data.length ≤ pos := by
      have := congrArg List.length h
      simp at this
      omega
    simp [List.getD_eq_getElem?_getD, List.getElem?_eq_none hlen]
  | cons b rest =>
    have h0 : (data.drop pos)[0]? = some b := by rw [h]; simp
    rw [List.getElem?_drop] at h0
    simp only [Nat.add_zero] at h0
    simp [List.getD_eq_getElem?_getD, h0, h]

theorem headD_append_of_ne_nil (l1 l2 : List Nat) (d : Nat) (h : l1 ≠ []) :
    (l1 ++ l2).headD d = l1.headD d := by
  cases l1 with
  | nil => exact absurd rfl h
  | cons a l => rfl

theorem take_replicate_le (n m : Nat) (a : α) (h : n ≤ m) :
    (List.replicate m a).take n = List.replicate n a := by
  induction n generalizing m with
  | zero => simp
  | succ n ih =>
    cases m with
    | zero => omega
    | succ m =>
      rw [List.replicate_succ, List.take_succ_cons, List.replicate_succ,
        ih m (by omega)]

theorem drop_replicate (n m : Nat) (a : α) :
    (List.replicate m a).drop n = List.replicate (m - n) a := by
  induction n generalizing m with
  | zero => simp
  | succ n ih =>
    cases m with
    | zero => simp
    | succ m =>
      rw [List.replicate_succ, List.drop_succ_cons, ih m]
      congr 1
      omega

theorem writeAt_append (l1 l2 src : List Nat) :
    writeAt (l1 ++ l2) l1.length src = l1 ++ src ++ l2.drop src.length := by
  unfold writeAt
  rw [List.take_left, drop_append_add]

theorem set_append_cons (l1 : List α) (b : α) (l2 : List α) (x : α) :
    (l1 ++ b :: l2).set l1.length x = l1 ++ x :: l2 := by
  rw [List.set_append_right _ _ (Nat.le_refl _)]
  simp

/- ### Well-formedness invariant -/

/-- The serialized form of one string entry: varint length header followed by
the payload bytes. -/
def encEntry (v : List Nat) : List Nat := lenHeader v.length ++ v

/-- The serialized form of a sequence of entries, back to back. -/
def encEntries (es : List (List Nat)) : List Nat := (es.map encEntry).flatten

/-- A pushed value is `good` when its length fits in a usize and its varint
length header does not begin with the terminator byte 0xFF (which happens
exactly when the length is at least 128 and its low seven bits are all
ones). -/
def goodVal (v : List Nat) : Prop :=
  v.length < 2 ^ 64 ∧ (v.length < 128 ∨ v.length % 128 ≠ 127)

/-- Structural well-formedness: the arena consists of some prefix, the
back-to-back serialized entries, the terminator byte and some suffix, and
`head`, `tail` and `num_entries` agree with that decomposition. -/
def WFraw (lp : Listpack) (es : List (List Nat)) : Prop :=
  ∃ pre post : List Nat,
    lp.data = pre ++ encEntries es ++ [LP_EOF] ++ post ∧
    lp.head = pre.length ∧
    lp.tail = lp.head + (encEntries es).length + 1 ∧
    lp.num_entries = es.length

/-- Full well-formedness: structural well-formedness plus goodness of all
stored entries (needed by the scans, which stop at a 0xFF byte). -/
def WF (lp : Listpack) (es : List (List Nat)) : Prop :=
  WFraw lp es ∧ ∀ v ∈ es, goodVal v

theorem encEntries_nil : encEntries [] = [] := rfl

theorem encEntries_cons (v : List Nat) (es : List (List Nat)) :
    encEntries (v :: es) = encEntry v ++ encEntries es := by
  simp [encEntries]

theorem encEntries_append (es1 es2 : List (List Nat)) :
    encEntries (es1 ++ es2) = encEntries es1 ++ encEntries es2 := by
  simp [encEntries]

theorem encEntry_length (v : List Nat) :
    (encEntry v).length = (lenHeader v.length).length + v.length := by
  simp [encEntry]

theorem encEntry_length_pos (v : List Nat) : 0 < (encEntry v).length := by
  rw [encEntry_length]
  have := lenHeader_length_pos v.length
  omega

theorem encEntry_ne_nil (v : List Nat) : encEntry v ≠ [] := by
  intro h
  have hp := encEntry_length_pos v
  rw [h] at hp
  simp at hp

theorem encEntry_headD_ne_eof (v : List Nat) (hg : goodVal v) :
    (encEntry v).headD 0 ≠ LP_EOF := by
  unfold encEntry
  rw [headD_append_of_ne_nil _ _ _ (by
    intro h
    have := congrArg List.length h
    have := lenHeader_length_pos v.length
    simp_all)]
  rw [lenHeader_headD]
  simp only [LP_EOF]
  rcases Nat.lt_or_ge v.length 128 with h | h
  · rw [if_pos h]; omega
  · rw [if_neg (by omega)]
    rcases hg.2 with h2 | h2
    · omega
    · have := Nat.mod_lt v.length (show 0 < 128 by norm_num)
      omega

theorem WFraw_tail_le (lp : Listpack) (es : List (List Nat)) (h : WFraw lp es) :
    lp.head < lp.tail ∧ lp.tail ≤ lp.data.length := by
  obtain ⟨pre, post, hdata, hhead, htail, hnum⟩ := h
  have hlen := congrArg List.length hdata
  simp [List.length_append] at hlen
  omega

/- ### Scan correctness for get -/

theorem getLoop_spec :
    ∀ (es : List (List Nat)) (data rest : List Nat) (tailv pos curr index : Nat),
      (∀ v ∈ es, goodVal v) →
      data.drop pos = encEntries es ++ LP_EOF :: rest →
      tailv = pos + (encEntries es).length + 1 →
      getLoop data tailv index pos curr =
        if curr ≤ index then es[index - curr]? else none := by
  intro es
  induction es with
  | nil =>
    intro data rest tailv pos curr index hgood hdrop htail
    rw [encEntries_nil] at hdrop htail
    unfold getLoop
    rw [dif_neg (by
      intro hcond
      apply hcond.2
      rw [getD_eq_drop_headD, hdrop]
      simp)]
    simp
  | cons v es' ih =>
    intro data rest tailv pos curr index hgood hdrop htail
    rw [encEntries_cons] at hdrop htail
    have hgv : goodVal v := hgood v (List.mem_cons_self v es')
    have hvlen : v.length < 2 ^ 64 := hgv.1
    have hdropE : data.drop pos
        = encEntry v ++ (encEntries es' ++ LP_EOF :: rest) := by
      rw [hdrop]
      simp [List.append_assoc]
    have hdropH : data.drop pos
        = lenHeader v.length ++ (v ++ (encEntries es' ++ LP_EOF :: rest)) := by
      rw [hdropE]
      simp [encEntry, List.append_assoc]
    have hdec : Listpack.decode_varint (data.drop pos)
        = some (v.length, (lenHeader v.length).length) := by
      rw [hdropH]
      exact decode_varint_lenHeader v.length _ hvlen
    have hcond : pos < tailv ∧ data.getD pos 0 ≠ LP_EOF := by
      constructor
      · have h1 := encEntry_length_pos v
        simp only [List.length_append] at htail
        omega
      · rw [getD_eq_drop_headD, hdropE]
        rw [headD_append_of_ne_nil _ _ _ (encEntry_ne_nil v)]
        exact encEntry_headD_ne_eof v hgv
    unfold getLoop
    rw [dif_pos hcond]
    split
    · rename_i hnone
      rw [hdec] at hnone
      cases hnone
    · rename_i len consumed hsome
      rw [hdec] at hsome
      simp only [Option.some.injEq, Prod.mk.injEq] at hsome
      obtain ⟨hlen, hcons⟩ := hsome
      subst hlen
      subst hcons
      by_cases heq : curr = index
      · rw [if_pos heq]
        subst heq
        have hdropv : data.drop (pos + (lenHeader v.length).length)
            = v ++ (encEntries es' ++ LP_EOF :: rest) := by
          rw [← List.drop_drop, hdropH, List.drop_left]
        rw [hdropv, List.take_left]
        simp
      · rw [if_neg heq]
        have hdropnext : data.drop (pos + (lenHeader v.length).length + v.length)
            = encEntries es' ++ LP_EOF :: rest := by
          have h1 : pos + (lenHeader v.length).length + v.length
              = pos + (encEntry v).length := by
            rw [encEntry_length]; omega
          rw [h1, ← List.drop_drop, hdropE, List.drop_left]
        have hrec := ih data rest tailv (pos + (lenHeader v.length).length + v.length)
          (curr + 1) index (fun w hw => hgood w (List.mem_cons_of_mem v hw))
          hdropnext
          (by
            simp only [List.length_append, encEntry_length] at htail ⊢
            omega)
        rw [hrec]
        by_cases hle : curr ≤ index
        · have hle' : curr + 1 ≤ index := by omega
          rw [if_pos hle', if_pos hle]
          have hidx : index - curr = (index - (curr + 1)) + 1 := by omega
          rw [hidx]
          simp
        · rw [if_neg (by omega), if_neg hle]

theorem get_spec (lp : Listpack) (es : List (List Nat)) (h : WF lp es) (i : Nat) :
    lp.get i = es[i]? := by
  obtain ⟨⟨pre, post, hdata, hhead, htail, hnum⟩, hgood⟩ := h
  unfold Listpack.get
  by_cases hi : lp.num_entries ≤ i
  · rw [if_pos hi]
    symm
    apply List.getElem?_eq_none
    omega
  · rw [if_neg hi]
    have hdrop : lp.data.drop lp.head = encEntries es ++ LP_EOF :: post := by
      rw [hdata, hhead]
      rw [show pre ++ encEntries es ++ [LP_EOF] ++ post
          = pre ++ (encEntries es ++ LP_EOF :: post) by simp only [List.append_assoc,
            List.singleton_append]]
      rw [List.drop_left]
    rw [getLoop_spec es lp.data post lp.tail lp.head 0 i hgood hdrop htail]
    simp

/- ### Growth and recentering -/

theorem grow_noop (lp : Listpack) (extra : Nat)
    (h1 : extra ≤ lp.head) (h2 : extra < lp.data.length - lp.tail) :
    lp.grow_and_center extra = lp := by
  unfold Listpack.grow_and_center
  rw [if_pos ⟨h1, h2⟩]

theorem grow_spec (lp : Listpack) (es : List (List Nat)) (extra : Nat)
    (hwf : WFraw lp es) :
    ∃ pre post : List Nat,
      (lp.grow_and_center extra).data = pre ++ encEntries es ++ [LP_EOF] ++ post ∧
      (lp.grow_and_center extra).head = pre.length ∧
      (lp.grow_and_center extra).tail = pre.length + (encEntries es).length + 1 ∧
      (lp.grow_and_center extra).num_entries = es.length ∧
      extra ≤ pre.length ∧ extra < post.length := by
  obtain ⟨pre, post, hdata, hhead, htail, hnum⟩ := hwf
  have hlen := congrArg List.length hdata
  simp only [List.length_append, List.length_singleton] at hlen
  by_cases hcond : extra ≤ lp.head ∧ extra < lp.data.length - lp.tail
  · rw [grow_noop lp extra hcond.1 hcond.2]
    exact ⟨pre, post, hdata, hhead, by omega, hnum, by omega, by omega⟩
  · unfold Listpack.grow_and_center
    rw [if_neg hcond]
    have hused : lp.tail - lp.head = (encEntries es).length + 1 := by omega
    have hslice : sliceL lp.data lp.head lp.tail = encEntries es ++ [LP_EOF] := by
      unfold sliceL
      rw [hdata, htail, hhead]
      rw [show pre ++ encEntries es ++ [LP_EOF] ++ post
          = pre ++ ((encEntries es ++ [LP_EOF]) ++ post) by
        simp only [List.append_assoc]]
      rw [List.drop_left]
      rw [List.take_left' (by simp; omega)]
    set used := lp.tail - lp.head with hused_def
    set need := used + extra + 1 with hneed_def
    set gf := if 1000 < lp.len then 2 else 3 with hgf_def
    set nc := max (max lp.len 1 * gf) (need * 2) with hnc_def
    set nh := (nc - used) / 2 with hnh_def
    have hnc2 : need * 2 ≤ nc := Nat.le_max_right _ _
    have hused1 : 1 ≤ used := by omega
    have hnh_ge : extra + 1 ≤ nh := by omega
    have hright : extra + 1 ≤ nc - nh - used := by omega
    have hnh_used : nh + used ≤ nc := by omega
    refine ⟨List.replicate nh 0, List.replicate (nc - nh - used) 0, ?_, ?_, ?_, ?_, ?_, ?_⟩
    · show writeAt (List.replicate nc 0) nh (sliceL lp.data lp.head lp.tail) = _
      rw [hslice]
      unfold writeAt
      rw [take_replicate_le nh nc 0 (by omega)]
      rw [show nh + (encEntries es ++ [LP_EOF]).length = nh + used by simp; omega]
      rw [drop_replicate]
      rw [show nc - (nh + used) = nc - nh - used by omega]
      simp only [List.append_assoc, List.singleton_append]
    · show nh = (List.replicate nh (0 : Nat)).length
      simp
    · show nh + used = (List.replicate nh (0 : Nat)).length + (encEntries es).length + 1
      simp
      omega
    · show lp.num_entries = es.length
      exact hnum
    · show extra ≤ (List.replicate nh (0 : Nat)).length
      simp
      omega
    · show extra < (List.replicate (nc - nh - used) (0 : Nat)).length
      simp
      omega

/- ### Push operations preserve well-formedness -/

theorem push_back_WFraw (lp : Listpack) (es : List (List Nat)) (v : List Nat)
    (hwf : WFraw lp es) :
    (lp.push_back v).1 = true ∧ WFraw (lp.push_back v).2 (es ++ [v]) := by
  refine ⟨rfl, ?_⟩
  unfold Listpack.push_back
  obtain ⟨pre, post, hdata, hhead, htail, hnum, hsl1, hsl2⟩ :=
    grow_spec lp es ((lenHeader v.length).length + v.length) hwf
  set g := lp.grow_and_center ((lenHeader v.length).length + v.length) with hg
  set extra := (lenHeader v.length).length + v.length with hextra
  have hexlen : (lenHeader v.length ++ v).length = extra := by
    simp only [List.length_append, hextra]
  have hterm : g.tail - 1 = (pre ++ encEntries es).length := by
    rw [htail]; simp
  have hdata2 : g.data = (pre ++ encEntries es) ++ ([LP_EOF] ++ post) := by
    rw [hdata]
    simp only [List.append_assoc]
  have hwrite : writeAt g.data (g.tail - 1) (lenHeader v.length ++ v)
      = (pre ++ encEntries es) ++ (lenHeader v.length ++ v)
        ++ ([LP_EOF] ++ post).drop extra := by
    rw [hdata2, hterm, writeAt_append, hexlen]
  have hex1 : 1 ≤ extra := by
    have := lenHeader_length_pos v.length
    omega
  have hdroplen : ([LP_EOF] ++ post).drop extra = post.drop (extra - 1) := by
    rw [List.singleton_append]
    rw [show extra = (extra - 1) + 1 by omega]
    rw [List.drop_succ_cons]
    rw [show extra - 1 + 1 - 1 = extra - 1 by omega]
  have hpost : ∃ b post2, post.drop (extra - 1) = b :: post2 := by
    have hlen : (post.drop (extra - 1)).length = post.length - (extra - 1) := by simp
    cases hpp : post.drop (extra - 1) with
    | nil =>
      rw [hpp] at hlen
      simp at hlen
      omega
    | cons b post2 => exact ⟨b, post2, rfl⟩
  obtain ⟨b, post2, hpp⟩ := hpost
  have hsetpos : g.tail - 1 + extra
      = ((pre ++ encEntries es) ++ (lenHeader v.length ++ v)).length := by
    rw [hterm]
    simp only [List.length_append, hextra]
  refine ⟨pre, post2, ?_, ?_, ?_, ?_⟩
  · show (writeAt g.data (g.tail - 1) (lenHeader v.length ++ v)).set (g.tail - 1 + extra) LP_EOF
        = pre ++ encEntries (es ++ [v]) ++ [LP_EOF] ++ post2
    rw [hwrite, hdroplen, hpp]
    rw [show (pre ++ encEntries es) ++ (lenHeader v.length ++ v) ++ b :: post2
        = ((pre ++ encEntries es) ++ (lenHeader v.length ++ v)) ++ b :: post2 by
      simp only [List.append_assoc]]
    rw [hsetpos, set_append_cons]
    rw [encEntries_append]
    simp only [encEntries_cons, encEntries_nil, List.append_nil, encEntry,
      List.append_assoc, List.singleton_append]
  · show g.head = pre.length
    exact hhead
  · show g.tail - 1 + extra + 1 = g.head + (encEntries (es ++ [v])).length + 1
    rw [hterm, hhead, encEntries_append]
    simp only [List.length_append, encEntries_cons, encEntries_nil, List.append_nil,
      encEntry_length, hextra]
    omega
  · show g.num_entries + 1 = (es ++ [v]).length
    rw [hnum]
    simp

theorem push_front_WFraw (lp : Listpack) (es : List (List Nat)) (v : List Nat)
    (hwf : WFraw lp es) :
    (lp.push_front v).1 = true ∧ WFraw (lp.push_front v).2 (v :: es) := by
  refine ⟨rfl, ?_⟩
  unfold Listpack.push_front
  obtain ⟨pre, post, hdata, hhead, htail, hnum, hsl1, hsl2⟩ :=
    grow_spec lp es ((lenHeader v.length).length + v.length) hwf
  set g := lp.grow_and_center ((lenHeader v.length).length + v.length) with hg
  set extra := (lenHeader v.length).length + v.length with hextra
  have hexlen : (lenHeader v.length ++ v).length = extra := by
    simp only [List.length_append, hextra]
  have hpre : pre = pre.take (pre.length - extra) ++ pre.drop (pre.length - extra) := by
    rw [List.take_append_drop]
  have hlen1 : (pre.take (pre.length - extra)).length = pre.length - extra := by
    simp
  have hlen2 : (pre.drop (pre.length - extra)).length = extra := by
    simp
    omega
  have hheadpos : g.head - extra = (pre.take (pre.length - extra)).length := by
    rw [hhead, hlen1]
  have hdata2 : g.data = pre.take (pre.length - extra)
      ++ (pre.drop (pre.length - extra) ++ (encEntries es ++ [LP_EOF] ++ post)) := by
    rw [hdata]
    conv_lhs => rw [hpre]
    simp only [List.append_assoc]
  refine ⟨pre.take (pre.length - extra), post, ?_, ?_, ?_, ?_⟩
  · show writeAt g.data (g.head - extra) (lenHeader v.length ++ v)
        = pre.take (pre.length - extra) ++ encEntries (v :: es) ++ [LP_EOF] ++ post
    rw [hdata2, hheadpos, writeAt_append, hexlen]
    rw [List.drop_left' hlen2]
    rw [encEntries_cons]
    simp only [encEntry, List.append_assoc]
  · show g.head - extra = (pre.take (pre.length - extra)).length
    exact hheadpos
  · show g.tail = g.head - extra + (encEntries (v :: es)).length + 1
    rw [htail, hhead, encEntries_cons]
    simp only [List.length_append, encEntry_length]
    omega
  · show g.num_entries + 1 = (v :: es).length
    rw [hnum]
    simp

/- ### Pop operations -/

theorem pop_front_spec (lp : Listpack) (es : List (List Nat)) (hwf : WF lp es) :
    (lp.pop_front).1 = es.head? ∧ WF (lp.pop_front).2 es.tail := by
  obtain ⟨⟨pre, post, hdata, hhead, htail, hnum⟩, hgood⟩ := hwf
  unfold Listpack.pop_front
  cases es with
  | nil =>
    rw [if_pos (by rw [hnum]; rfl)]
    exact ⟨rfl, ⟨pre, post, hdata, hhead, htail, hnum⟩, hgood⟩
  | cons v es' =>
    rw [if_neg (by rw [hnum]; simp)]
    have hgv : goodVal v := hgood v (List.mem_cons_self v es')
    have hdropH : lp.data.drop lp.head
        = lenHeader v.length ++ (v ++ (encEntries es' ++ LP_EOF :: post)) := by
      rw [hdata, hhead]
      rw [show pre ++ encEntries (v :: es') ++ [LP_EOF] ++ post
          = pre ++ (lenHeader v.length ++ (v ++ (encEntries es' ++ LP_EOF :: post))) by
        rw [encEntries_cons]
        simp only [encEntry, List.append_assoc, List.singleton_append]]
      rw [List.drop_left]
    have hdec : Listpack.decode_varint (lp.data.drop lp.head)
        = some (v.length, (lenHeader v.length).length) := by
      rw [hdropH]
      exact decode_varint_lenHeader v.length _ hgv.1
    split
    · rename_i hnone
      rw [hdec] at hnone
      cases hnone
    · rename_i len consumed hsome
      rw [hdec] at hsome
      simp only [Option.some.injEq, Prod.mk.injEq] at hsome
      obtain ⟨hlen, hcons⟩ := hsome
      subst hlen
      subst hcons
      constructor
      · show some ((lp.data.drop (lp.head + (lenHeader v.length).length)).take v.length)
            = some v
        have hdropv : lp.data.drop (lp.head + (lenHeader v.length).length)
            = v ++ (encEntries es' ++ LP_EOF :: post) := by
          rw [← List.drop_drop, hdropH, List.drop_left]
        rw [hdropv, List.take_left]
      · refine ⟨⟨pre ++ encEntry v, post, ?_, ?_, ?_, ?_⟩,
          fun w hw => hgood w (List.mem_cons_of_mem v hw)⟩
        · show lp.data = (pre ++ encEntry v) ++ encEntries es' ++ [LP_EOF] ++ post
          rw [hdata, encEntries_cons]
          simp only [List.append_assoc]
        · show lp.head + (lenHeader v.length).length + v.length
              = (pre ++ encEntry v).length
          rw [hhead]
          simp only [List.length_append, encEntry_length]
          omega
        · show lp.tail = lp.head + (lenHeader v.length).length + v.length
              + (encEntries es').length + 1
          rw [htail, encEntries_cons]
          simp only [List.length_append, encEntry_length]
          omega
        · show lp.num_entries - 1 = es'.length
          rw [hnum]
          simp

theorem popBackLoop_spec :
    ∀ (es : List (List Nat)) (v : List Nat) (data rest : List Nat) (tailv pos lp0 lh0 : Nat),
      (∀ w ∈ es, goodVal w) → goodVal v →
      data.drop pos = encEntries (es ++ [v]) ++ LP_EOF :: rest →
      tailv = pos + (encEntries (es ++ [v])).length + 1 →
      popBackLoop data tailv pos lp0 lh0 =
        some (pos + (encEntries es).length, (lenHeader v.length).length) := by
  intro es
  induction es with
  | nil =>
    intro v data rest tailv pos lp0 lh0 hgood hgv hdrop htail
    rw [show ([] : List (List Nat)) ++ [v] = [v] from rfl] at hdrop htail
    have hE : encEntries [v] = encEntry v := by
      rw [encEntries_cons, encEntries_nil, List.append_nil]
    rw [hE] at hdrop htail
    have hdropH : data.drop pos
        = lenHeader v.length ++ (v ++ (LP_EOF :: rest)) := by
      rw [hdrop]
      simp only [encEntry, List.append_assoc]
    have hdec : Listpack.decode_varint (data.drop pos)
        = some (v.length, (lenHeader v.length).length) := by
      rw [hdropH]
      exact decode_varint_lenHeader v.length _ hgv.1
    unfold popBackLoop
    rw [dif_pos (by
      have := encEntry_length_pos v
      omega)]
    rw [if_neg (by
      rw [getD_eq_drop_headD, hdrop]
      rw [headD_append_of_ne_nil _ _ _ (encEntry_ne_nil v)]
      exact encEntry_headD_ne_eof v hgv)]
    split
    · rename_i hnone
      rw [hdec] at hnone
      cases hnone
    · rename_i len header hsome
      rw [hdec] at hsome
      simp only [Option.some.injEq, Prod.mk.injEq] at hsome
      obtain ⟨hlen, hcons⟩ := hsome
      subst hlen
      subst hcons
      unfold popBackLoop
      rw [dif_pos (by
        rw [htail, encEntry_length]
        omega)]
      rw [if_pos (by
        rw [getD_eq_drop_headD]
        rw [show pos + (lenHeader v.length).length + v.length
            = pos + (encEntry v).length by rw [encEntry_length]; omega]
        rw [← List.drop_drop, hdrop, List.drop_left]
        rfl)]
      rw [encEntries_nil]
      simp
  | cons w es' ih =>
    intro v data rest tailv pos lp0 lh0 hgood hgv hdrop htail
    have hgw : goodVal w := hgood w (List.mem_cons_self w es')
    have hconsE : encEntries ((w :: es') ++ [v]) = encEntry w ++ encEntries (es' ++ [v]) := by
      rw [List.cons_append, encEntries_cons]
    rw [hconsE] at hdrop htail
    have hdropE : data.drop pos
        = encEntry w ++ (encEntries (es' ++ [v]) ++ LP_EOF :: rest) := by
      rw [hdrop]
      simp only [List.append_assoc]
    have hdropH : data.drop pos
        = lenHeader w.length ++ (w ++ (encEntries (es' ++ [v]) ++ LP_EOF :: rest)) := by
      rw [hdropE]
      simp only [encEntry, List.append_assoc]
    have hdec : Listpack.decode_varint (data.drop pos)
        = some (w.length, (lenHeader w.length).length) := by
      rw [hdropH]
      exact decode_varint_lenHeader w.length _ hgw.1
    unfold popBackLoop
    rw [dif_pos (by
      have h1 := encEntry_length_pos w
      simp only [List.length_append] at htail
      omega)]
    rw [if_neg (by
      rw [getD_eq_drop_headD, hdropE]
      rw [headD_append_of_ne_nil _ _ _ (encEntry_ne_nil w)]
      exact encEntry_headD_ne_eof w hgw)]
    split
    · rename_i hnone
      rw [hdec] at hnone
      cases hnone
    · rename_i len header hsome
      rw [hdec] at hsome
      simp only [Option.some.injEq, Prod.mk.injEq] at hsome
      obtain ⟨hlen, hcons⟩ := hsome
      subst hlen
      subst hcons
      have hdropnext : data.drop (pos + (lenHeader w.length).length + w.length)
          = encEntries (es' ++ [v]) ++ LP_EOF :: rest := by
        rw [show pos + (lenHeader w.length).length + w.length
            = pos + (encEntry w).length by rw [encEntry_length]; omega]
        rw [← List.drop_drop, hdropE, List.drop_left]
      rw [ih v data rest tailv (pos + (lenHeader w.length).length + w.length) pos
        (lenHeader w.length).length
        (fun x hx => hgood x (List.mem_cons_of_mem w hx)) hgv hdropnext
        (by
          simp only [List.length_append, encEntry_length] at htail ⊢
          omega)]
      rw [encEntries_cons]
      simp only [List.length_append, encEntry_length]
      congr 2
      omega

theorem writeAt_append' (l1 l2 src : List Nat) (p : Nat) (hp : p = l1.length) :
    writeAt (l1 ++ l2) p src = l1 ++ src ++ l2.drop src.length := by
  subst hp
  exact writeAt_append l1 l2 src

theorem pop_back_spec (lp : Listpack) (es : List (List Nat)) (v : List Nat)
    (hwf : WF lp (es ++ [v])) :
    (lp.pop_back).1 = some v ∧ WF (lp.pop_back).2 es := by
  obtain ⟨⟨pre, post, hdata, hhead, htail, hnum⟩, hgood⟩ := hwf
  have hgv : goodVal v := hgood v (by simp)
  have hgood' : ∀ w ∈ es, goodVal w := fun w hw => hgood w (by simp [hw])
  unfold Listpack.pop_back
  rw [if_neg (by rw [hnum]; simp)]
  have hdrop : lp.data.drop lp.head = encEntries (es ++ [v]) ++ LP_EOF :: post := by
    rw [hdata, hhead]
    rw [show pre ++ encEntries (es ++ [v]) ++ [LP_EOF] ++ post
        = pre ++ (encEntries (es ++ [v]) ++ LP_EOF :: post) by
      simp only [List.append_assoc, List.singleton_append]]
    rw [List.drop_left]
  have hloop := popBackLoop_spec es v lp.data post lp.tail lp.head lp.head 0
    hgood' hgv hdrop htail
  split
  · rename_i hnone
    rw [hloop] at hnone
    cases hnone
  · rename_i last_pos last_header hsome
    rw [hloop] at hsome
    simp only [Option.some.injEq, Prod.mk.injEq] at hsome
    obtain ⟨hlp, hlh⟩ := hsome
    subst hlp
    subst hlh
    have hE : encEntries (es ++ [v]) = encEntries es ++ encEntry v := by
      rw [encEntries_append, encEntries_cons, encEntries_nil, List.append_nil]
    have hdata2 : lp.data
        = (pre ++ encEntries es) ++ (encEntry v ++ ([LP_EOF] ++ post)) := by
      rw [hdata, hE]
      simp only [List.append_assoc]
    have hlplen : lp.head + (encEntries es).length = (pre ++ encEntries es).length := by
      rw [hhead]
      simp
    have hdroplast : lp.data.drop (lp.head + (encEntries es).length)
        = lenHeader v.length ++ (v ++ ([LP_EOF] ++ post)) := by
      rw [hdata2, List.drop_left' hlplen.symm]
      simp only [encEntry, List.append_assoc]
    have hdec : Listpack.decode_varint (lp.data.drop (lp.head + (encEntries es).length))
        = some (v.length, (lenHeader v.length).length) := by
      rw [hdroplast]
      exact decode_varint_lenHeader v.length _ hgv.1
    split
    · rename_i hnone
      rw [hdec] at hnone
      cases hnone
    · rename_i len hdiscard hsome2
      rw [hdec] at hsome2
      simp only [Option.some.injEq, Prod.mk.injEq] at hsome2
      obtain ⟨hlen, _⟩ := hsome2
      subst hlen
      have hdropstart : lp.data.drop (lp.head + (encEntries es).length
          + (lenHeader v.length).length) = v ++ ([LP_EOF] ++ post) := by
        rw [← List.drop_drop, hdroplast, List.drop_left]
      have htail2 : lp.tail
          = lp.head + (encEntries es).length + (encEntry v).length + 1 := by
        rw [htail, hE]
        simp only [List.length_append]
        omega
      have hstartlen : lp.head + (encEntries es).length + (lenHeader v.length).length
          + v.length = ((pre ++ encEntries es) ++ encEntry v).length := by
        rw [hhead]
        simp only [List.length_append, encEntry_length]
        omega
      have hslice : sliceL lp.data (lp.head + (encEntries es).length
          + (lenHeader v.length).length + v.length) lp.tail = [LP_EOF] := by
        unfold sliceL
        rw [show lp.data = ((pre ++ encEntries es) ++ encEntry v) ++ ([LP_EOF] ++ post) by
          rw [hdata2]; simp only [List.append_assoc]]
        rw [List.drop_left' hstartlen.symm]
        rw [show lp.tail - (lp.head + (encEntries es).length + (lenHeader v.length).length
            + v.length) = 1 by
          rw [encEntry_length] at htail2
          omega]
        rfl
      have hcw : copyWithin lp.data
            (lp.head + (encEntries es).length + (lenHeader v.length).length + v.length)
            lp.tail (lp.head + (encEntries es).length)
          = (pre ++ encEntries es) ++ [LP_EOF]
            ++ (encEntry v ++ ([LP_EOF] ++ post)).drop 1 := by
        unfold copyWithin
        rw [hslice, hdata2, writeAt_append' _ _ _ _ hlplen]
        rfl
      have htv : lp.tail - (lp.head + (encEntries es).length + (lenHeader v.length).length
          + v.length - (lp.head + (encEntries es).length))
          = lp.head + (encEntries es).length + 1 := by
        rw [encEntry_length] at htail2
        omega
      constructor
      · show some ((lp.data.drop (lp.head + (encEntries es).length
            + (lenHeader v.length).length)).take v.length) = some v
        rw [hdropstart, List.take_left]
      · refine ⟨⟨pre, (encEntry v ++ ([LP_EOF] ++ post)).drop 1, ?_, ?_, ?_, ?_⟩, hgood'⟩
        · dsimp only
          rw [htv]
          rw [if_pos (by omega)]
          rw [hcw]
          rw [show lp.head + (encEntries es).length + 1 - 1
              = (pre ++ encEntries es).length from by rw [← hlplen]; omega]
          rw [show (pre ++ encEntries es) ++ [LP_EOF]
                ++ (encEntry v ++ ([LP_EOF] ++ post)).drop 1
              = (pre ++ encEntries es)
                ++ LP_EOF :: (encEntry v ++ ([LP_EOF] ++ post)).drop 1 from by
            simp only [List.append_assoc, List.singleton_append]]
          rw [set_append_cons]
        · show lp.head = pre.length
          exact hhead
        · dsimp only
          rw [htv, hhead]
        · show lp.num_entries - 1 = es.length
          rw [hnum]
          simp

/- ### Remove -/

theorem removeLoop_spec :
    ∀ (es : List (List Nat)) (data rest : List Nat) (tailv pos curr index : Nat),
      (∀ v ∈ es, goodVal v) →
      data.drop pos = encEntries es ++ LP_EOF :: rest →
      tailv = pos + (encEntries es).length + 1 →
      removeLoop data tailv index pos curr =
        if curr ≤ index ∧ index - curr < es.length then
          some (pos + (encEntries (es.take (index - curr))).length,
            pos + (encEntries (es.take (index - curr + 1))).length)
        else none := by
  intro es
  induction es with
  | nil =>
    intro data rest tailv pos curr index hgood hdrop htail
    rw [encEntries_nil] at hdrop htail
    unfold removeLoop
    rw [dif_neg (by
      intro hcond
      apply hcond.2
      rw [getD_eq_drop_headD, hdrop]
      simp)]
    rw [if_neg (by simp)]
  | cons v es' ih =>
    intro data rest tailv pos curr index hgood hdrop htail
    rw [encEntries_cons] at hdrop htail
    have hgv : goodVal v := hgood v (List.mem_cons_self v es')
    have hdropE : data.drop pos
        = encEntry v ++ (encEntries es' ++ LP_EOF :: rest) := by
      rw [hdrop]
      simp only [List.append_assoc]
    have hdropH : data.drop pos
        = lenHeader v.length ++ (v ++ (encEntries es' ++ LP_EOF :: rest)) := by
      rw [hdropE]
      simp only [encEntry, List.append_assoc]
    have hdec : Listpack.decode_varint (data.drop pos)
        = some (v.length, (lenHeader v.length).length) := by
      rw [hdropH]
      exact decode_varint_lenHeader v.length _ hgv.1
    have hcond : pos < tailv ∧ data.getD pos 0 ≠ LP_EOF := by
      constructor
      · have h1 := encEntry_length_pos v
        simp only [List.length_append] at htail
        omega
      · rw [getD_eq_drop_headD, hdropE]
        rw [headD_append_of_ne_nil _ _ _ (encEntry_ne_nil v)]
        exact encEntry_headD_ne_eof v hgv
    unfold removeLoop
    rw [dif_pos hcond]
    split
    · rename_i hnone
      rw [hdec] at hnone
      cases hnone
    · rename_i len consumed hsome
      rw [hdec] at hsome
      simp only [Option.some.injEq, Prod.mk.injEq] at hsome
      obtain ⟨hlen, hcons⟩ := hsome
      subst hlen
      subst hcons
      by_cases heq : curr = index
      · rw [if_pos heq]
        subst heq
        rw [if_pos ⟨Nat.le_refl _, by simp⟩]
        simp only [Nat.sub_self, List.take_zero, encEntries_nil, List.length_nil,
          Nat.add_zero, List.take_succ_cons, Option.some.injEq, Prod.mk.injEq]
        refine ⟨trivial, ?_⟩
        rw [show encEntries [v] = encEntry v from by
          rw [encEntries_cons, encEntries_nil, List.append_nil]]
        rw [encEntry_length]
        omega
      · rw [if_neg heq]
        have hdropnext : data.drop (pos + (lenHeader v.length).length + v.length)
            = encEntries es' ++ LP_EOF :: rest := by
          have h1 : pos + (lenHeader v.length).length + v.length
              = pos + (encEntry v).length := by
            rw [encEntry_length]; omega
          rw [h1, ← List.drop_drop, hdropE, List.drop_left]
        have hrec := ih data rest tailv (pos + (lenHeader v.length).length + v.length)
          (curr + 1) index (fun w hw => hgood w (List.mem_cons_of_mem v hw))
          hdropnext
          (by
            simp only [List.length_append, encEntry_length] at htail ⊢
            omega)
        rw [hrec]
        by_cases hle : curr ≤ index
        · have hle' : curr + 1 ≤ index := by omega
          have hidx : index - curr = (index - (curr + 1)) + 1 := by omega
          by_cases hin : index - (curr + 1) < es'.length
          · rw [if_pos ⟨hle', hin⟩, if_pos ⟨hle, by simp; omega⟩]
            rw [hidx]
            simp only [List.take_succ_cons, encEntries_cons, List.length_append,
              encEntry_length, Option.some.injEq, Prod.mk.injEq]
            constructor <;> omega
          · rw [if_neg (by intro hh; exact hin hh.2), if_neg (by
              intro hh
              apply hin
              simp at hh
              omega)]
        · rw [if_neg (by intro hh; omega), if_neg (by intro hh; exact hle hh.1)]

theorem remove_spec (lp : Listpack) (es : List (List Nat)) (hwf : WF lp es) (index : Nat) :
    (es.length ≤ index → lp.remove index = (false, lp)) ∧
    (index < es.length →
      (lp.remove index).1 = true ∧ WF (lp.remove index).2 (es.eraseIdx index)) := by
  obtain ⟨⟨pre, post, hdata, hhead, htail, hnum⟩, hgood⟩ := hwf
  constructor
  · intro hge
    unfold Listpack.remove
    rw [if_pos (by omega)]
  · intro hidx
    unfold Listpack.remove
    rw [if_neg (by omega)]
    have hdrop : lp.data.drop lp.head = encEntries es ++ LP_EOF :: post := by
      rw [hdata, hhead]
      rw [show pre ++ encEntries es ++ [LP_EOF] ++ post
          = pre ++ (encEntries es ++ LP_EOF :: post) by
        simp only [List.append_assoc, List.singleton_append]]
      rw [List.drop_left]
    have hloop := removeLoop_spec es lp.data post lp.tail lp.head 0 index hgood hdrop htail
    rw [if_pos ⟨Nat.zero_le _, by omega⟩] at hloop
    simp only [Nat.sub_zero] at hloop
    have hE1w : encEntries (es.take (index + 1))
        = encEntries (es.take index) ++ encEntry es[index] := by
      rw [List.take_succ, List.getElem?_eq_getElem hidx]
      rw [encEntries_append]
      simp [encEntries_cons, encEntries_nil]
    have hes : es = es.take index ++ es[index] :: es.drop (index + 1) := by
      conv_lhs => rw [← List.take_append_drop index es]
      rw [List.drop_eq_getElem_cons hidx]
    split
    · rename_i hnone
      rw [hloop] at hnone
      cases hnone
    · rename_i s e hsome
      rw [hloop] at hsome
      simp only [Option.some.injEq, Prod.mk.injEq] at hsome
      obtain ⟨hs, he⟩ := hsome
      subst hs
      subst he
      set w := es[index] with hw
      set E1 := encEntries (es.take index) with hE1
      set E2 := encEntries (es.drop (index + 1)) with hE2
      have hEsplit : encEntries es = E1 ++ (encEntry w ++ E2) := by
        conv_lhs => rw [hes]
        rw [encEntries_append, encEntries_cons]
      have hdataG : lp.data = ((pre ++ E1) ++ encEntry w) ++ ((E2 ++ [LP_EOF]) ++ post) := by
        rw [hdata, hEsplit]
        simp only [List.append_assoc]
      have hslen : lp.head + E1.length = (pre ++ E1).length := by
        rw [hhead]; simp
      have helen : lp.head + (encEntries (es.take (index + 1))).length
          = ((pre ++ E1) ++ encEntry w).length := by
        rw [hE1w, hhead]
        simp only [List.length_append]
        omega
      have htail3 : lp.tail = lp.head + E1.length + (encEntry w).length + E2.length + 1 := by
        rw [htail, hEsplit]
        simp only [List.length_append]
        omega
      have hslice : sliceL lp.data (lp.head + (encEntries (es.take (index + 1))).length)
          lp.tail = E2 ++ [LP_EOF] := by
        unfold sliceL
        rw [hdataG, List.drop_left' helen.symm]
        rw [show lp.tail - (lp.head + (encEntries (es.take (index + 1))).length)
            = (E2 ++ [LP_EOF]).length by
          rw [hE1w]
          simp only [List.length_append, List.length_singleton]
          omega]
        rw [List.take_left]
      have hcw : copyWithin lp.data (lp.head + (encEntries (es.take (index + 1))).length)
            lp.tail (lp.head + E1.length)
          = (pre ++ E1) ++ (E2 ++ [LP_EOF])
            ++ (encEntry w ++ ((E2 ++ [LP_EOF]) ++ post)).drop (E2 ++ [LP_EOF]).length := by
        unfold copyWithin
        rw [hslice]
        rw [show lp.data = (pre ++ E1) ++ (encEntry w ++ ((E2 ++ [LP_EOF]) ++ post)) by
          rw [hdataG]; simp only [List.append_assoc]]
        rw [writeAt_append' _ _ _ _ hslen]
      have htv : lp.tail - (lp.head + (encEntries (es.take (index + 1))).length
          - (lp.head + E1.length)) = lp.head + E1.length + E2.length + 1 := by
        rw [hE1w]
        simp only [List.length_append]
        omega
      constructor
      · rfl
      · refine ⟨⟨pre, (encEntry w ++ ((E2 ++ [LP_EOF]) ++ post)).drop (E2 ++ [LP_EOF]).length,
          ?_, ?_, ?_, ?_⟩, ?_⟩
        · dsimp only
          rw [htv]
          rw [if_pos (by omega)]
          rw [hcw]
          rw [show lp.head + E1.length + E2.length + 1 - 1
              = ((pre ++ E1) ++ E2).length from by simp [hhead]; omega]
          rw [show (pre ++ E1) ++ (E2 ++ [LP_EOF])
                ++ (encEntry w ++ ((E2 ++ [LP_EOF]) ++ post)).drop (E2 ++ [LP_EOF]).length
              = ((pre ++ E1) ++ E2)
                ++ LP_EOF :: (encEntry w ++ ((E2 ++ [LP_EOF]) ++ post)).drop
                  (E2 ++ [LP_EOF]).length from by
            simp only [List.append_assoc, List.singleton_append]]
          rw [set_append_cons]
          rw [List.eraseIdx_eq_take_drop_succ, encEntries_append]
          simp only [List.append_assoc, List.singleton_append]
        · show lp.head = pre.length
          exact hhead
        · dsimp only
          rw [htv, hhead, List.eraseIdx_eq_take_drop_succ, encEntries_append]
          simp only [List.length_append]
          rw [← hE1, ← hE2]
          omega
        · show lp.num_entries - 1 = (es.eraseIdx index).length
          rw [hnum, List.length_eraseIdx_of_lt hidx]
        · intro x hx
          apply hgood
          rw [List.eraseIdx_eq_take_drop_succ] at hx
          rcases List.mem_append.mp hx with h1 | h1
          · exact List.mem_of_mem_take h1
          · exact List.mem_of_mem_drop h1

/- ### new, clear, push_integer -/

theorem new_WF : WF Listpack.new [] := by
  refine ⟨⟨(List.replicate 1024 (0 : Nat)).take 512, (List.replicate 1024 (0 : Nat)).drop 513,
    ?_, ?_, ?_, rfl⟩, by simp⟩
  · show (List.replicate 1024 (0 : Nat)).set (1024 / 2) LP_EOF = _
    rw [List.set_eq_take_append_cons_drop]
    rw [if_pos (by norm_num)]
    rw [encEntries_nil]
    norm_num
  · show (1024 : Nat) / 2 = ((List.replicate 1024 (0 : Nat)).take 512).length
    norm_num
  · show (1024 : Nat) / 2 + 1
        = (1024 : Nat) / 2 + (encEntries []).length + 1
    rw [encEntries_nil]
    norm_num

theorem clear_WF (lp : Listpack) (es : List (List Nat)) (hwf : WF lp es) :
    WF lp.clear [] := by
  obtain ⟨⟨pre, post, hdata, hhead, htail, hnum⟩, hgood⟩ := hwf
  have hlen : 0 < lp.data.length := by
    rw [hdata]; simp
  have hhl : lp.data.length / 2 < lp.data.length := Nat.div_lt_self hlen (by norm_num)
  refine ⟨⟨lp.data.take (lp.data.length / 2), lp.data.drop (lp.data.length / 2 + 1),
    ?_, ?_, ?_, rfl⟩, by simp⟩
  · show lp.data.set (lp.data.length / 2) LP_EOF = _
    rw [List.set_eq_take_append_cons_drop, if_pos hhl, encEntries_nil]
    simp
  · show lp.data.length / 2 = (lp.data.take (lp.data.length / 2)).length
    simp
    omega
  · show lp.data.length / 2 + 1
        = lp.data.length / 2 + (encEntries []).length + 1
    rw [encEntries_nil]
    rfl

theorem leBytes_length (w : Nat) : ∀ n, (leBytes w n).length = w := by
  induction w with
  | zero => intro n; rfl
  | succ w ih => intro n; simp [leBytes, ih]

theorem encode_int_length_le (v : Int) : (Listpack.encode_int v).length ≤ 9 := by
  unfold Listpack.encode_int
  split_ifs <;> simp [leBytesOfInt, leBytes_length, List.length_take]

theorem encode_int_good (v : Int) : goodVal (Listpack.encode_int v) := by
  have h := encode_int_length_le v
  exact ⟨by calc (Listpack.encode_int v).length ≤ 9 := h
              _ < 2 ^ 64 := by norm_num,
    Or.inl (by omega)⟩

/- ### WF wrappers for push operations -/

theorem push_back_WF (lp : Listpack) (es : List (List Nat)) (v : List Nat)
    (hwf : WF lp es) (hv : goodVal v) : WF (lp.push_back v).2 (es ++ [v]) := by
  refine ⟨(push_back_WFraw lp es v hwf.1).2, ?_⟩
  intro w hw
  rcases List.mem_append.mp hw with h1 | h1
  · exact hwf.2 w h1
  · rw [List.mem_singleton.mp h1]
    exact hv

theorem push_front_WF (lp : Listpack) (es : List (List Nat)) (v : List Nat)
    (hwf : WF lp es) (hv : goodVal v) : WF (lp.push_front v).2 (v :: es) := by
  refine ⟨(push_front_WFraw lp es v hwf.1).2, ?_⟩
  intro w hw
  rcases List.mem_cons.mp hw with h1 | h1
  · rw [h1]; exact hv
  · exact hwf.2 w h1

theorem push_integer_WF (lp : Listpack) (es : List (List Nat)) (n : Int)
    (hwf : WF lp es) : WF (lp.push_integer n).2 (es ++ [Listpack.encode_int n]) :=
  push_back_WF lp es (Listpack.encode_int n) hwf (encode_int_good n)

theorem pop_back_empty (lp : Listpack) (h : lp.num_entries = 0) :
    lp.pop_back = (none, lp) := by
  unfold Listpack.pop_back
  rw [if_pos h]

/- ### The public operation trace -/

/-- One public mutation of the container. -/
inductive Op where
  | op_push_front (v : List Nat)
  | op_push_back (v : List Nat)
  | op_push_integer (n : Int)
  | op_pop_front
  | op_pop_back
  | op_remove (i : Nat)
  | op_clear

/-- A pushed byte-string operand is well-behaved: its length fits in a usize
and its length header does not begin with 0xFF. -/
def Op.good : Op → Prop
  | .op_push_front v => goodVal v
  | .op_push_back v => goodVal v
  | _ => True

/-- The state transition of one public operation (outputs discarded). -/
def applyOp (lp : Listpack) : Op → Listpack
  | .op_push_front v => (lp.push_front v).2
  | .op_push_back v => (lp.push_back v).2
  | .op_push_integer n => (lp.push_integer n).2
  | .op_pop_front => (lp.pop_front).2
  | .op_pop_back => (lp.pop_back).2
  | .op_remove i => (lp.remove i).2
  | .op_clear => lp.clear

/-- Run a sequence of public operations on a freshly constructed Listpack. -/
def runOps (ops : List Op) : Listpack := ops.foldl applyOp Listpack.new

theorem applyOp_WF (lp : Listpack) (es : List (List Nat)) (op : Op)
    (hwf : WF lp es) (hgood : op.good) : ∃ es', WF (applyOp lp op) es' := by
  cases op with
  | op_push_front v => exact ⟨v :: es, push_front_WF lp es v hwf hgood⟩
  | op_push_back v => exact ⟨es ++ [v], push_back_WF lp es v hwf hgood⟩
  | op_push_integer n => exact ⟨es ++ [Listpack.encode_int n], push_integer_WF lp es n hwf⟩
  | op_pop_front => exact ⟨es.tail, (pop_front_spec lp es hwf).2⟩
  | op_pop_back =>
    rcases List.eq_nil_or_concat es with hnil | ⟨L, b, hcat⟩
    · subst hnil
      refine ⟨[], ?_⟩
      show WF (lp.pop_back).2 []
      rw [pop_back_empty lp (by
        obtain ⟨⟨pre, post, _, _, _, hnum⟩, _⟩ := hwf
        rw [hnum]; rfl)]
      exact hwf
    · subst hcat
      rw [List.concat_eq_append] at *
      exact ⟨L, (pop_back_spec lp L b hwf).2⟩
  | op_remove i =>
    rcases Nat.lt_or_ge i es.length with hlt | hge
    · exact ⟨es.eraseIdx i, ((remove_spec lp es hwf i).2 hlt).2⟩
    · refine ⟨es, ?_⟩
      show WF (lp.remove i).2 es
      rw [(remove_spec lp es hwf i).1 hge]
      exact hwf
  | op_clear => exact ⟨[], clear_WF lp es hwf⟩

theorem foldl_WF (ops : List Op) :
    ∀ (lp : Listpack) (es : List (List Nat)), WF lp es →
      (∀ op ∈ ops, op.good) → ∃ es', WF (ops.foldl applyOp lp) es' := by
  induction ops with
  | nil => intro lp es hwf _; exact ⟨es, hwf⟩
  | cons op ops ih =>
    intro lp es hwf hgood
    obtain ⟨es', hwf'⟩ := applyOp_WF lp es op hwf (hgood op (List.mem_cons_self op ops))
    exact ih _ es' hwf' (fun o ho => hgood o (List.mem_cons_of_mem op ho))

theorem runOps_WF (ops : List Op) (h : ∀ op ∈ ops, op.good) :
    ∃ es, WF (runOps ops) es :=
  foldl_WF ops Listpack.new [] new_WF h

/- ### The invariant asserted by the specification -/

/-- The structural invariant claimed for every reachable state: the offsets
are ordered and in bounds, and the live region holds exactly `num_entries`
back-to-back serialized entries followed by the terminator byte. -/
def ClaimInv (lp : Listpack) : Prop :=
  lp.head < lp.tail ∧ lp.tail ≤ lp.data.length ∧
  ∃ es : List (List Nat), es.length = lp.num_entries ∧
    sliceL lp.data lp.head lp.tail = encEntries es ++ [LP_EOF]

theorem WF_ClaimInv (lp : Listpack) (es : List (List Nat)) (h : WF lp es) :
    ClaimInv lp := by
  obtain ⟨⟨pre, post, hdata, hhead, htail, hnum⟩, _⟩ := h
  have hb := WFraw_tail_le lp es ⟨pre, post, hdata, hhead, htail, hnum⟩
  refine ⟨hb.1, hb.2, es, hnum.symm, ?_⟩
  unfold sliceL
  rw [hdata, hhead, htail, hhead]
  rw [show pre ++ encEntries es ++ [LP_EOF] ++ post
      = pre ++ ((encEntries es ++ [LP_EOF]) ++ post) from by simp only [List.append_assoc]]
  rw [List.drop_left]
  rw [List.take_left' (by simp; omega)]

/- ### Facts about a pushed value of length 255 (header starts with 0xFF) -/

theorem lenHeader_255 : lenHeader 255 = [255, 1] := by
  rw [lenHeader_ge_128 255 (by norm_num)]
  norm_num
  rw [lenHeader_lt_128 1 (by norm_num)]

theorem bad255_facts (lp : Listpack) (hwf : WFraw lp [List.replicate 255 0]) :
    lp.data.getD lp.head 0 = LP_EOF ∧ lp.num_entries = 1 ∧
    lp.tail = lp.head + 258 ∧
    Listpack.decode_varint (lp.data.drop lp.head) = some (255, 2) := by
  obtain ⟨pre, post, hdata, hhead, htail, hnum⟩ := hwf
  have hE : encEntries [List.replicate 255 0]
      = lenHeader 255 ++ List.replicate 255 0 := by
    rw [encEntries_cons, encEntries_nil, List.append_nil, encEntry]
    simp only [List.length_replicate]
  have hElen : (encEntries [List.replicate 255 0]).length = 257 := by
    rw [hE, lenHeader_255]
    simp only [List.length_append, List.length_replicate, List.length_cons, List.length_nil]
  have hdrop : lp.data.drop lp.head
      = lenHeader 255 ++ (List.replicate 255 0 ++ (LP_EOF :: post)) := by
    rw [hdata, hhead]
    rw [show pre ++ encEntries [List.replicate 255 0] ++ [LP_EOF] ++ post
        = pre ++ (encEntries [List.replicate 255 0] ++ LP_EOF :: post) from by
      simp only [List.append_assoc, List.singleton_append]]
    rw [List.drop_left, hE]
    simp only [List.append_assoc]
  refine ⟨?_, by rw [hnum]; rfl, by rw [htail, hElen], ?_⟩
  · rw [getD_eq_drop_headD, hdrop, lenHeader_255]
    rfl
  · rw [hdrop]
    have hd := decode_varint_lenHeader 255
      (List.replicate 255 0 ++ (LP_EOF :: post)) (by norm_num)
    rw [hd, lenHeader_255]
    rfl

theorem get_255 (lp : Listpack) (hwf : WFraw lp [List.replicate 255 0]) :
    lp.get 0 = none := by
  obtain ⟨hgetD, hnum, htail, _⟩ := bad255_facts lp hwf
  unfold Listpack.get
  rw [if_neg (by omega)]
  unfold getLoop
  rw [dif_neg (by intro hc; exact hc.2 hgetD)]

theorem remove_255 (lp : Listpack) (hwf : WFraw lp [List.replicate 255 0]) :
    lp.remove 0 = (false, lp) := by
  obtain ⟨hgetD, hnum, htail, _⟩ := bad255_facts lp hwf
  unfold Listpack.remove
  rw [if_neg (by omega)]
  unfold removeLoop
  rw [dif_neg (by intro hc; exact hc.2 hgetD)]

theorem pop_back_255 (lp : Listpack) (hwf : WFraw lp [List.replicate 255 0]) :
    (lp.pop_back).2.num_entries = 0 ∧
    (lp.pop_back).2.tail = (lp.pop_back).2.head + 3 := by
  obtain ⟨hgetD, hnum, htail, hdec⟩ := bad255_facts lp hwf
  unfold Listpack.pop_back
  rw [if_neg (by omega)]
  have hloopv : popBackLoop lp.data lp.tail lp.head lp.head 0 = some (lp.head, 0) := by
    unfold popBackLoop
    rw [dif_pos (by omega)]
    rw [if_pos hgetD]
  rw [hloopv]
  dsimp only
  rw [hdec]
  dsimp only
  omega

/- ### Batch pushes -/

/-- Push a sequence of values via push_back, in order. -/
def pushBackAll (lp : Listpack) (vs : List (List Nat)) : Listpack :=
  vs.foldl (fun l v => (l.push_back v).2) lp

/-- Push a sequence of values via push_front, in order. -/
def pushFrontAll (lp : Listpack) (vs : List (List Nat)) : Listpack :=
  vs.foldl (fun l v => (l.push_front v).2) lp

theorem pushBackAll_WF :
    ∀ (vs : List (List Nat)) (lp : Listpack) (es : List (List Nat)),
      WF lp es → (∀ v ∈ vs, goodVal v) → WF (pushBackAll lp vs) (es ++ vs) := by
  intro vs
  induction vs with
  | nil => intro lp es hwf _; simpa using hwf
  | cons v vs ih =>
    intro lp es hwf hgood
    have h1 := push_back_WF lp es v hwf (hgood v (List.mem_cons_self v vs))
    have h2 := ih (lp.push_back v).2 (es ++ [v]) h1
      (fun w hw => hgood w (List.mem_cons_of_mem v hw))
    have : (es ++ [v]) ++ vs = es ++ v :: vs := by simp
    rw [this] at h2
    exact h2

theorem pushFrontAll_WF :
    ∀ (vs : List (List Nat)) (lp : Listpack) (es : List (List Nat)),
      WF lp es → (∀ v ∈ vs, goodVal v) → WF (pushFrontAll lp vs) (vs.reverse ++ es) := by
  intro vs
  induction vs with
  | nil => intro lp es hwf _; simpa using hwf
  | cons v vs ih =>
    intro lp es hwf hgood
    have h1 := push_front_WF lp es v hwf (hgood v (List.mem_cons_self v vs))
    have h2 := ih (lp.push_front v).2 (v :: es) h1
      (fun w hw => hgood w (List.mem_cons_of_mem v hw))
    have : vs.reverse ++ (v :: es) = (v :: vs).reverse ++ es := by simp
    rw [this] at h2
    exact h2

/- ### A bound on the number of elements the iterator yields -/

theorem iterYieldCount_le (data : List Nat) (endPos : Nat)
    (hE : data.getD (endPos - 1) 0 = LP_EOF) :
    ∀ pos, iterYieldCount data pos endPos ≤ endPos - 1 - pos := by
  have H : ∀ n pos, endPos - pos ≤ n → iterYieldCount data pos endPos ≤ endPos - 1 - pos := by
    intro n
    induction n with
    | zero =>
      intro pos h
      unfold iterYieldCount
      rw [dif_neg (by omega)]
      omega
    | succ n ih =>
      intro pos h
      unfold iterYieldCount
      by_cases hc : pos < endPos ∧ data.getD pos 0 ≠ LP_EOF
      · rw [dif_pos hc]
        have hpos : pos < endPos - 1 := by
          rcases Nat.lt_or_ge pos (endPos - 1) with h1 | h1
          · exact h1
          · exfalso
            have : pos = endPos - 1 := by omega
            rw [this] at hc
            exact hc.2 hE
        split
        · omega
        · rename_i len consumed hdec
          have hcons := decode_varint_consumed hdec
          have := ih (pos + consumed + len) (by omega)
          omega
      · rw [dif_neg hc]
        omega
  intro pos
  exact H (endPos - pos) pos (Nat.le_refl _)

/- ### Integer entry round-trip -/

theorem and128_ne_iff (b : Nat) (hb : b < 256) : (b &&& 128 ≠ 0) ↔ 128 ≤ b := by
  constructor
  · intro h
    by_contra hlt
    exact h (and_128_of_lt b (by omega))
  · intro h
    have : b = (b - 128) + 128 := by omega
    rw [this]
    exact and_128_of_add (b - 128) (by omega)

theorem and128_eq_zero_iff (b : Nat) (hb : b < 256) : (b &&& 128 = 0) ↔ b < 128 := by
  constructor
  · intro h
    by_contra hge
    exact (and128_ne_iff b hb).mpr (by omega) h
  · intro h
    exact and_128_of_lt b h

theorem dec8 (v : Int) (h1 : -128 ≤ v) (h2 : v ≤ 127) :
    Listpack.decode_integer (LP_ENCODING_INT8 :: leBytesOfInt 1 v) = some v := by
  have hn : leBytesOfInt 1 v = [(v % 256).toNat % 256] := by
    unfold leBytesOfInt
    norm_num
    rfl
  rw [hn]
  unfold Listpack.decode_integer
  norm_num [LP_ENCODING_INT8]
  unfold asSigned
  norm_num
  split_ifs <;> omega

theorem dec16 (v : Int) (h1 : -32768 ≤ v) (h2 : v ≤ 32767) :
    Listpack.decode_integer (LP_ENCODING_INT16 :: leBytesOfInt 2 v) = some v := by
  have hn : leBytesOfInt 2 v
      = [(v % 65536).toNat % 256, (v % 65536).toNat / 256 % 256] := by
    unfold leBytesOfInt
    norm_num
    rfl
  rw [hn]
  unfold Listpack.decode_integer
  norm_num [LP_ENCODING_INT8, LP_ENCODING_INT16]
  simp only [asSigned, fromLe]
  norm_num
  split_ifs <;> omega

theorem dec24 (v : Int) (h1 : -(2 ^ 23) ≤ v) (h2 : v ≤ 2 ^ 23 - 1) :
    Listpack.decode_integer
      (LP_ENCODING_INT24 :: (leBytesOfInt 8 v).take 3) = some v := by
  have hn : (leBytesOfInt 8 v).take 3
      = [(v % (2 ^ 64)).toNat % 256, (v % (2 ^ 64)).toNat / 256 % 256,
        (v % (2 ^ 64)).toNat / 256 / 256 % 256] := by
    unfold leBytesOfInt
    rfl
  rw [hn]
  unfold Listpack.decode_integer
  norm_num [LP_ENCODING_INT8, LP_ENCODING_INT16, LP_ENCODING_INT24]
  have hcond : ((v % (18446744073709551616 : Int)).toNat / 256 / 256 % 256 &&& 128 = 0)
      = ((v % (18446744073709551616 : Int)).toNat / 256 / 256 % 256 < 128) :=
    propext (and128_eq_zero_iff _ (Nat.mod_lt _ (by norm_num)))
  simp only [hcond]
  simp only [asSigned, fromLe]
  norm_num
  split_ifs <;> omega

theorem dec32 (v : Int) (h1 : -(2 ^ 31) ≤ v) (h2 : v ≤ 2 ^ 31 - 1) :
    Listpack.decode_integer (LP_ENCODING_INT32 :: leBytesOfInt 4 v) = some v := by
  have hn : leBytesOfInt 4 v
      = [(v % (2 ^ 32)).toNat % 256, (v % (2 ^ 32)).toNat / 256 % 256,
        (v % (2 ^ 32)).toNat / 256 / 256 % 256,
        (v % (2 ^ 32)).toNat / 256 / 256 / 256 % 256] := by
    unfold leBytesOfInt
    rfl
  rw [hn]
  unfold Listpack.decode_integer
  norm_num [LP_ENCODING_INT8, LP_ENCODING_INT16, LP_ENCODING_INT24, LP_ENCODING_INT32]
  simp only [asSigned, fromLe]
  norm_num
  split_ifs <;> omega

theorem dec64 (v : Int) (h1 : -(2 ^ 63) ≤ v) (h2 : v < 2 ^ 63) :
    Listpack.decode_integer (LP_ENCODING_INT64 :: leBytesOfInt 8 v) = some v := by
  have hn : leBytesOfInt 8 v
      = [(v % (2 ^ 64)).toNat % 256, (v % (2 ^ 64)).toNat / 256 % 256,
        (v % (2 ^ 64)).toNat / 256 / 256 % 256,
        (v % (2 ^ 64)).toNat / 256 / 256 / 256 % 256,
        (v % (2 ^ 64)).toNat / 256 / 256 / 256 / 256 % 256,
        (v % (2 ^ 64)).toNat / 256 / 256 / 256 / 256 / 256 % 256,
        (v % (2 ^ 64)).toNat / 256 / 256 / 256 / 256 / 256 / 256 % 256,
        (v % (2 ^ 64)).toNat / 256 / 256 / 256 / 256 / 256 / 256 / 256 % 256] := by
    unfold leBytesOfInt
    rfl
  rw [hn]
  unfold Listpack.decode_integer
  norm_num [LP_ENCODING_INT8, LP_ENCODING_INT16, LP_ENCODING_INT24, LP_ENCODING_INT32,
    LP_ENCODING_INT64]
  simp only [asSigned, fromLe]
  norm_num
  split_ifs <;> omega

theorem decode_encode_int (v : Int) (h1 : -(2 ^ 63) ≤ v) (h2 : v < 2 ^ 63) :
    Listpack.decode_integer (Listpack.encode_int v) = some v := by
  unfold Listpack.encode_int
  split_ifs with hc1 hc2 hc3 hc4
  · exact dec8 v hc1.1 hc1.2
  · exact dec16 v hc2.1 hc2.2
  · exact dec24 v hc3.1 hc3.2
  · exact dec32 v (by exact_mod_cast hc4.1) (by
      have := hc4.2
      omega)
  · exact dec64 v h1 h2

/- ### Width minimality of the integer encoding -/

/-- The representable range of the `w`-byte two's-complement integer
encodings, as the specification words it ("losslessly represents"). -/
def intWidthOk (w : Nat) (v : Int) : Prop :=
  -(2 ^ (8 * w - 1)) ≤ v ∧ v ≤ 2 ^ (8 * w - 1) - 1

/-- The tag byte the source uses for each payload width. -/
def tagFor : Nat → Nat
  | 1 => LP_ENCODING_INT8
  | 2 => LP_ENCODING_INT16
  | 3 => LP_ENCODING_INT24
  | 4 => LP_ENCODING_INT32
  | 8 => LP_ENCODING_INT64
  | _ => 0

theorem encode_int_width (v : Int) (h1 : -(2 ^ 63) ≤ v) (h2 : v < 2 ^ 63) :
    ∃ w, w ∈ [1, 2, 3, 4, 8] ∧ intWidthOk w v ∧
      (∀ w' ∈ [1, 2, 3, 4, 8], w' < w → ¬ intWidthOk w' v) ∧
      (Listpack.encode_int v).length = 1 + w ∧
      (Listpack.encode_int v).headD 0 = tagFor w := by
  unfold Listpack.encode_int
  split_ifs with hc1 hc2 hc3 hc4
  · refine ⟨1, by simp, by norm_num [intWidthOk]; omega, ?_, ?_, rfl⟩
    · intro w' hw' hlt
      simp at hw'
      omega
    · simp [leBytesOfInt, leBytes_length]
  · refine ⟨2, by simp, by norm_num [intWidthOk]; omega, ?_, ?_, rfl⟩
    · intro w' hw' hlt
      simp at hw'
      have hw1 : w' = 1 := by omega
      subst hw1
      norm_num [intWidthOk]
      omega
    · simp [leBytesOfInt, leBytes_length]
  · refine ⟨3, by simp, by norm_num [intWidthOk]; omega, ?_, ?_, rfl⟩
    · intro w' hw' hlt
      simp at hw'
      have hw12 : w' = 1 ∨ w' = 2 := by omega
      rcases hw12 with hw1 | hw1 <;> subst hw1 <;> (norm_num [intWidthOk]; omega)
    · simp [leBytesOfInt, leBytes_length]
  · refine ⟨4, by simp, by norm_num [intWidthOk]; omega, ?_, ?_, rfl⟩
    · intro w' hw' hlt
      simp at hw'
      have hw123 : w' = 1 ∨ w' = 2 ∨ w' = 3 := by omega
      rcases hw123 with hw1 | hw1 | hw1 <;> subst hw1 <;> (norm_num [intWidthOk]; omega)
    · simp [leBytesOfInt, leBytes_length]
  · refine ⟨8, by simp, by norm_num [intWidthOk]; omega, ?_, ?_, rfl⟩
    · intro w' hw' hlt
      simp at hw'
      have hw1234 : w' = 1 ∨ w' = 2 ∨ w' = 3 ∨ w' = 4 := by omega
      rcases hw1234 with hw1 | hw1 | hw1 | hw1 <;> subst hw1 <;>
        (norm_num [intWidthOk]; omega)
    · simp [leBytesOfInt, leBytes_length]

/- ### Claim C1 -/

theorem bad255_pop_not_ClaimInv (lp : Listpack) (hwf : WFraw lp [List.replicate 255 0]) :
    ¬ ClaimInv (lp.pop_back).2 := by
  obtain ⟨hnum, htail⟩ := pop_back_255 lp hwf
  intro hCI
  unfold ClaimInv at hCI
  obtain ⟨h1, h2, es, hlen, hslice⟩ := hCI
  have hes : es = [] := List.eq_nil_of_length_eq_zero (by omega)
  subst hes
  have hL := congrArg List.length hslice
  simp only [sliceL, List.length_take, List.length_drop, encEntries_nil,
    List.nil_append, List.length_singleton] at hL
  omega

/-- C1: after any finite sequence of public operations whose pushed byte
strings are well-behaved (length below 2^64 and length header not starting
with the 0xFF terminator byte), the reachable state satisfies the claimed
structural invariant: head < tail ≤ data.length and the live region holds
exactly num_entries back-to-back serialized entries followed by the
terminator.  The unrestricted claim is refuted by
claim_C1_counterexample. -/
theorem claim_C1 (ops : List Op) (hgood : ∀ op ∈ ops, op.good) :
    ClaimInv (runOps ops) := by
  obtain ⟨es, hwf⟩ := runOps_WF ops hgood
  exact WF_ClaimInv _ es hwf

/-- C1 witness: a concrete operation sequence reaching a state that satisfies
the invariant. -/
theorem claim_C1_witness :
    (∀ op ∈ [Op.op_push_back [97]], op.good) ∧
    ClaimInv (runOps [Op.op_push_back [97]]) := by
  have hg : ∀ op ∈ [Op.op_push_back [97]], op.good := by
    intro op hop
    simp only [List.mem_singleton] at hop
    subst hop
    exact ⟨by norm_num, Or.inl (by norm_num)⟩
  exact ⟨hg, claim_C1 _ hg⟩

/-- C1 counterexample: pushing a 255-byte value makes the entry's length
header begin with 0xFF, and the following pop_back mis-scans and leaves a
state whose live region is not a well-formed entry sequence, refuting the
invariant claim for unrestricted operation sequences. -/
theorem claim_C1_counterexample :
    ¬ ClaimInv (runOps [Op.op_push_back (List.replicate 255 0), Op.op_pop_back]) := by
  have h1 := push_back_WFraw Listpack.new [] (List.replicate 255 0) new_WF.1
  have hwf1 : WFraw (Listpack.new.push_back (List.replicate 255 0)).2
      [List.replicate 255 0] := h1.2
  exact bad255_pop_not_ClaimInv _ hwf1

/- ### Claims C2 and C3 -/

/-- C2: pushing well-behaved byte strings v1..vn in order via push_back into
a new Listpack yields len() = n and get(i) = some vi for i < n, none for
i ≥ n.  The unrestricted claim is refuted by claim_C2_counterexample. -/
theorem claim_C2 (vs : List (List Nat)) (hgood : ∀ v ∈ vs, goodVal v) :
    (pushBackAll Listpack.new vs).len = vs.length ∧
    ∀ i, (pushBackAll Listpack.new vs).get i = vs[i]? := by
  have hwf : WF (pushBackAll Listpack.new vs) vs := by
    have h := pushBackAll_WF vs Listpack.new [] new_WF hgood
    simpa using h
  constructor
  · obtain ⟨⟨pre, post, hdata, hhead, htail, hnum⟩, -⟩ := hwf
    exact hnum
  · intro i
    rw [get_spec _ vs hwf]

/-- C2 witness: two concrete pushes, with the length and a lookup checked. -/
theorem claim_C2_witness :
    (∀ v ∈ [[97], [98, 99]], goodVal v) ∧
    (pushBackAll Listpack.new [[97], [98, 99]]).len = 2 ∧
    (pushBackAll Listpack.new [[97], [98, 99]]).get 1 = some [98, 99] := by
  have hg : ∀ v ∈ [[97], [98, 99]], goodVal v := by
    intro v hv
    simp only [List.mem_cons, List.not_mem_nil, or_false] at hv
    rcases hv with rfl | rfl
    · exact ⟨by norm_num, Or.inl (by norm_num)⟩
    · exact ⟨by norm_num, Or.inl (by norm_num)⟩
  have h := claim_C2 [[97], [98, 99]] hg
  refine ⟨hg, h.1, ?_⟩
  rw [h.2 1]
  rfl

set_option maxRecDepth 8192 in
/-- C2 counterexample: pushing one 255-byte value gives len() = 1 but
get 0 = none, because the value's length header begins with the terminator
byte 0xFF and the forward scan stops before the first entry. -/
theorem claim_C2_counterexample :
    (pushBackAll Listpack.new [List.replicate 255 0]).len = 1 ∧
    (pushBackAll Listpack.new [List.replicate 255 0]).get 0 = none := by
  have hwf1 : WFraw (Listpack.new.push_back (List.replicate 255 0)).2
      [List.replicate 255 0] :=
    (push_back_WFraw Listpack.new [] (List.replicate 255 0) new_WF.1).2
  obtain ⟨pre, post, hdata, hhead, htail, hnum⟩ := hwf1
  exact ⟨hnum, get_255 _ ⟨pre, post, hdata, hhead, htail, hnum⟩⟩

/-- C3: pushing well-behaved byte strings v1..vn in order via push_front
into a new Listpack yields len() = n and the stored order reversed:
get i = vs.reverse[i]? (so get 0 = some vn, ..., get (n-1) = some v1).
The unrestricted claim is refuted by claim_C3_counterexample. -/
theorem claim_C3 (vs : List (List Nat)) (hgood : ∀ v ∈ vs, goodVal v) :
    (pushFrontAll Listpack.new vs).len = vs.length ∧
    ∀ i, (pushFrontAll Listpack.new vs).get i = vs.reverse[i]? := by
  have hwf : WF (pushFrontAll Listpack.new vs) vs.reverse := by
    have h := pushFrontAll_WF vs Listpack.new [] new_WF hgood
    simpa using h
  constructor
  · obtain ⟨⟨pre, post, hdata, hhead, htail, hnum⟩, -⟩ := hwf
    have h2 : (pushFrontAll Listpack.new vs).num_entries = vs.length := by
      simpa using hnum
    exact h2
  · intro i
    rw [get_spec _ vs.reverse hwf]

/-- C3 witness: two concrete front pushes, the later one first. -/
theorem claim_C3_witness :
    (∀ v ∈ [[97], [98]], goodVal v) ∧
    (pushFrontAll Listpack.new [[97], [98]]).len = 2 ∧
    (pushFrontAll Listpack.new [[97], [98]]).get 0 = some [98] := by
  have hg : ∀ v ∈ [[97], [98]], goodVal v := by
    intro v hv
    simp only [List.mem_cons, List.not_mem_nil, or_false] at hv
    rcases hv with rfl | rfl
    · exact ⟨by norm_num, Or.inl (by norm_num)⟩
    · exact ⟨by norm_num, Or.inl (by norm_num)⟩
  have h := claim_C3 [[97], [98]] hg
  refine ⟨hg, h.1, ?_⟩
  rw [h.2 0]
  decide

set_option maxRecDepth 8192 in
/-- C3 counterexample: front-pushing one 255-byte value gives len() = 1 but
get 0 = none. -/
theorem claim_C3_counterexample :
    (pushFrontAll Listpack.new [List.replicate 255 0]).len = 1 ∧
    (pushFrontAll Listpack.new [List.replicate 255 0]).get 0 = none := by
  have hwf1 : WFraw (Listpack.new.push_front (List.replicate 255 0)).2
      [List.replicate 255 0] :=
    (push_front_WFraw Listpack.new [] (List.replicate 255 0) new_WF.1).2
  obtain ⟨pre, post, hdata, hhead, htail, hnum⟩ := hwf1
  exact ⟨hnum, get_255 _ ⟨pre, post, hdata, hhead, htail, hnum⟩⟩

/- ### Claims C4 and C5 -/

/-- C4: for every i64 value, push_integer stores as the entry payload the
smallest of the five tagged fixed-width little-endian encodings that
losslessly represents the value (tag 0x01/1 byte for [-128,127], 0x02/2
bytes, 0x03/3 bytes for [-2^23, 2^23-1], 0x04/4 bytes, 0x05/8 bytes
otherwise), decode_integer inverts the encoding (the 24-bit decode
sign-extending bit 23), and on a well-formed state the stored payload is
what get returns at the new entry's index. -/
theorem claim_C4 (v : Int) (h1 : -(2 ^ 63) ≤ v) (h2 : v < 2 ^ 63) :
    (∃ w, w ∈ [1, 2, 3, 4, 8] ∧ intWidthOk w v ∧
      (∀ w' ∈ [1, 2, 3, 4, 8], w' < w → ¬ intWidthOk w' v) ∧
      (Listpack.encode_int v).length = 1 + w ∧
      (Listpack.encode_int v).headD 0 = tagFor w) ∧
    Listpack.decode_integer (Listpack.encode_int v) = some v ∧
    ∀ lp es, WF lp es →
      (lp.push_integer v).2.get lp.len = some (Listpack.encode_int v) := by
  refine ⟨encode_int_width v h1 h2, decode_encode_int v h1 h2, ?_⟩
  intro lp es hwf
  have hwf' := push_integer_WF lp es v hwf
  rw [get_spec _ _ hwf']
  obtain ⟨⟨pre, post, hdata, hhead, htail, hnum⟩, -⟩ := hwf
  have hlen : lp.len = es.length := hnum
  rw [hlen]
  exact List.getElem?_concat_length es (Listpack.encode_int v)

/-- C4 witness: the 24-bit-range value -1000000 round-trips, and pushed on a
fresh Listpack its payload is returned by get at index 0. -/
theorem claim_C4_witness :
    -(2 ^ 63) ≤ (-1000000 : Int) ∧ (-1000000 : Int) < 2 ^ 63 ∧
    Listpack.decode_integer (Listpack.encode_int (-1000000)) = some (-1000000) ∧
    (Listpack.new.push_integer (-1000000)).2.get Listpack.new.len
      = some (Listpack.encode_int (-1000000)) := by
  have h := claim_C4 (-1000000) (by norm_num) (by norm_num)
  exact ⟨by norm_num, by norm_num, h.2.1, h.2.2 Listpack.new [] new_WF⟩

/-- C5: encode_varint produces the minimal-length 7-bit-per-byte
continuation-flagged little-endian encoding (one byte for values below 128,
one byte per base-128 digit in general), and decode_varint inverts it,
returning the value and the number of bytes consumed. -/
theorem claim_C5 (v : Nat) (h : v < 2 ^ 64) :
    (v < 128 → (Listpack.encode_varint v).length = 1) ∧
    (Listpack.encode_varint v).length = Nat.log 128 v + 1 ∧
    Listpack.decode_varint (Listpack.encode_varint v)
      = some (v, (Listpack.encode_varint v).length) := by
  refine ⟨?_, ?_, decode_encode_varint v h⟩
  · intro hv
    rw [← lenHeader_eq_encode_varint, lenHeader_lt_128 v hv]
    rfl
  · rw [← lenHeader_eq_encode_varint, lenHeader_length]

/-- C5 witness: the two-7-bit-group boundary value 16384 uses three bytes
and round-trips. -/
theorem claim_C5_witness :
    16384 < 2 ^ 64 ∧
    (Listpack.encode_varint 16384).length = Nat.log 128 16384 + 1 ∧
    Listpack.decode_varint (Listpack.encode_varint 16384)
      = some (16384, (Listpack.encode_varint 16384).length) := by
  have h := claim_C5 16384 (by norm_num)
  exact ⟨by norm_num, h.2.1, h.2.2⟩

/- ### Claim C6 -/

/-- The no-op condition of grow_and_center as the specification words it:
at least `extra` bytes of slack on each side.  (The source instead requires
the tail-side slack to be strictly greater than `extra`.) -/
def claimNoGrowCond (lp : Listpack) (extra : Nat) : Prop :=
  extra ≤ lp.head ∧ extra ≤ lp.data.length - lp.tail

/-- The reallocation capacity as the specification words it: the current
logical size (live bytes, tail - head) times the growth factor, or twice
the live bytes plus extra plus one, whichever is larger.  (The source's
first argument is the entry count, not the logical byte size.) -/
def claimNewCap (lp : Listpack) (extra : Nat) : Nat :=
  max ((lp.tail - lp.head) * (if 1000 < lp.len then 2 else 3))
    (2 * (lp.tail - lp.head + extra + 1))

/-- C6: grow_and_center(extra) is a no-op when the head-side slack is at
least `extra` and the tail-side slack strictly exceeds `extra`; otherwise
it reallocates to capacity max(max(num_entries, 1) x growth_factor,
2 x (live_bytes + extra + 1)) with growth_factor 3 normally and 2 once the
entry count exceeds 1000, placing the live region at the center (rounded
down) and preserving its bytes.  The specification's version of the no-op
condition and of the capacity formula is refuted by
claim_C6_counterexample. -/
theorem claim_C6 (lp : Listpack) (extra : Nat)
    (hht : lp.head ≤ lp.tail) (htl : lp.tail ≤ lp.data.length) :
    ((extra ≤ lp.head ∧ extra < lp.data.length - lp.tail) →
      lp.grow_and_center extra = lp) ∧
    (¬ (extra ≤ lp.head ∧ extra < lp.data.length - lp.tail) →
      (lp.grow_and_center extra).data.length
        = max (max lp.len 1 * (if 1000 < lp.len then 2 else 3))
            ((lp.tail - lp.head + extra + 1) * 2) ∧
      (lp.grow_and_center extra).head
        = ((lp.grow_and_center extra).data.length - (lp.tail - lp.head)) / 2 ∧
      (lp.grow_and_center extra).tail
        = (lp.grow_and_center extra).head + (lp.tail - lp.head) ∧
      (lp.grow_and_center extra).num_entries = lp.num_entries ∧
      sliceL (lp.grow_and_center extra).data (lp.grow_and_center extra).head
          (lp.grow_and_center extra).tail
        = sliceL lp.data lp.head lp.tail) := by
  constructor
  · intro hc
    exact grow_noop lp extra hc.1 hc.2
  · intro hc
    set used := lp.tail - lp.head with hused_def
    set need := used + extra + 1 with hneed_def
    set gf := if 1000 < lp.len then 2 else 3 with hgf_def
    set nc := max (max lp.len 1 * gf) (need * 2) with hnc_def
    set nh := (nc - used) / 2 with hnh_def
    have hg : lp.grow_and_center extra
        = { data := writeAt (List.replicate nc 0) nh (sliceL lp.data lp.head lp.tail),
            head := nh, tail := nh + used, num_entries := lp.num_entries } := by
      unfold Listpack.grow_and_center
      rw [if_neg hc]
    have hslicelen : (sliceL lp.data lp.head lp.tail).length = used := by
      simp only [sliceL, List.length_take, List.length_drop]
      omega
    have hnc2 : need * 2 ≤ nc := Nat.le_max_right _ _
    have hnh_used : nh + used ≤ nc := by omega
    have hlen : (writeAt (List.replicate nc 0) nh
        (sliceL lp.data lp.head lp.tail)).length = nc := by
      unfold writeAt
      rw [take_replicate_le nh nc 0 (by omega)]
      rw [hslicelen, drop_replicate]
      simp only [List.length_append, List.length_replicate]
      omega
    rw [hg]
    refine ⟨?_, ?_, ?_, rfl, ?_⟩
    · exact hlen
    · show nh = ((writeAt (List.replicate nc 0) nh
          (sliceL lp.data lp.head lp.tail)).length - used) / 2
      rw [hlen]
    · rfl
    · show sliceL (writeAt (List.replicate nc 0) nh
          (sliceL lp.data lp.head lp.tail)) nh (nh + used)
        = sliceL lp.data lp.head lp.tail
      set s := sliceL lp.data lp.head lp.tail with hs
      unfold sliceL writeAt
      rw [take_replicate_le nh nc 0 (by omega)]
      rw [show nh + used - nh = used from by omega]
      rw [show List.replicate nh (0 : Nat) ++ s ++ (List.replicate nc 0).drop (nh + s.length)
          = List.replicate nh (0 : Nat) ++ (s ++ (List.replicate nc 0).drop (nh + s.length))
          from by simp only [List.append_assoc]]
      rw [List.drop_left' (by simp)]
      rw [List.take_left' hslicelen]

set_option maxRecDepth 8192 in
/-- C6 counterexample: (a) a state with exactly `extra` bytes of slack on
each side, which the specification calls a no-op but the source
reallocates; (b) a state on which the reallocated capacity differs from the
specification's live-bytes-based formula (the source uses the entry
count). -/
theorem claim_C6_counterexample :
    (claimNoGrowCond { data := [0, 255, 0], head := 1, tail := 2, num_entries := 0 } 1 ∧
      Listpack.grow_and_center
          { data := [0, 255, 0], head := 1, tail := 2, num_entries := 0 } 1
        ≠ { data := [0, 255, 0], head := 1, tail := 2, num_entries := 0 }) ∧
    (Listpack.grow_and_center
        { data := List.replicate 50 0, head := 0, tail := 50, num_entries := 1 } 0).data.length
      ≠ claimNewCap { data := List.replicate 50 0, head := 0, tail := 50, num_entries := 1 } 0 := by
  refine ⟨⟨?_, ?_⟩, ?_⟩
  · unfold claimNoGrowCond
    decide
  · decide
  · unfold claimNewCap
    decide

set_option maxRecDepth 100000 in
/-- C6 witness: on a fresh Listpack, one spare byte is a no-op, while a
600-byte request reallocates to capacity max(3, (1+600+1)*2) = 1204. -/
theorem claim_C6_witness :
    Listpack.new.head ≤ Listpack.new.tail ∧
    Listpack.new.tail ≤ Listpack.new.data.length ∧
    Listpack.new.grow_and_center 1 = Listpack.new ∧
    (Listpack.new.grow_and_center 600).data.length = 1204 := by
  have h1 := claim_C6 Listpack.new 1 (by decide) (by decide)
  have h2 := claim_C6 Listpack.new 600 (by decide) (by decide)
  refine ⟨by decide, by decide, h1.1 (by decide), ?_⟩
  have h3 := (h2.2 (by decide)).1
  rw [h3]
  decide

/- ### Claims C7 and C8 -/

/-- C7: on a well-formed state holding well-behaved entries, remove(i) for
i < len() returns true, decreases len() by one and preserves the remaining
values and their relative order (the resulting sequence is the old one with
index i erased); for i >= len() it returns false and leaves the whole state
unchanged.  The unrestricted claim is refuted by
claim_C7_counterexample. -/
theorem claim_C7 (lp : Listpack) (es : List (List Nat)) (hwf : WF lp es) (i : Nat) :
    (es.length ≤ i → lp.remove i = (false, lp)) ∧
    (i < es.length →
      (lp.remove i).1 = true ∧
      (lp.remove i).2.len = es.length - 1 ∧
      ∀ j, (lp.remove i).2.get j = (es.eraseIdx i)[j]?) := by
  have h := remove_spec lp es hwf i
  refine ⟨h.1, fun hi => ?_⟩
  obtain ⟨hret, hwf'⟩ := h.2 hi
  refine ⟨hret, ?_, fun j => get_spec _ _ hwf' j⟩
  obtain ⟨⟨pre, post, hdata, hhead, htail, hnum⟩, -⟩ := hwf'
  have h2 : (lp.remove i).2.num_entries = es.length - 1 := by
    rw [hnum]
    exact List.length_eraseIdx_of_lt hi
  exact h2

/-- C7 witness: removing index 0 from a one-entry Listpack succeeds and
leaves it empty. -/
theorem claim_C7_witness :
    WF (Listpack.new.push_back [97]).2 [[97]] ∧
    ((Listpack.new.push_back [97]).2.remove 0).1 = true ∧
    ((Listpack.new.push_back [97]).2.remove 0).2.len = 0 ∧
    ((Listpack.new.push_back [97]).2.remove 0).2.get 0 = none := by
  have hwf : WF (Listpack.new.push_back [97]).2 [[97]] :=
    push_back_WF Listpack.new [] [97] new_WF ⟨by norm_num, Or.inl (by norm_num)⟩
  have h := (claim_C7 _ _ hwf 0).2 (by norm_num)
  refine ⟨hwf, h.1, h.2.1, ?_⟩
  rw [h.2.2 0]
  rfl

/-- C7 counterexample: after pushing one 255-byte value (a valid index 0
with len() = 1), remove 0 returns false and changes nothing, because the
value's length header begins with the terminator byte and the scan never
reaches the entry. -/
theorem claim_C7_counterexample :
    (Listpack.new.push_back (List.replicate 255 0)).2.len = 1 ∧
    (Listpack.new.push_back (List.replicate 255 0)).2.remove 0
      = (false, (Listpack.new.push_back (List.replicate 255 0)).2) := by
  have hwf1 : WFraw (Listpack.new.push_back (List.replicate 255 0)).2
      [List.replicate 255 0] :=
    (push_back_WFraw Listpack.new [] (List.replicate 255 0) new_WF.1).2
  obtain ⟨pre, post, hdata, hhead, htail, hnum⟩ := hwf1
  exact ⟨hnum, remove_255 _ ⟨pre, post, hdata, hhead, htail, hnum⟩⟩

/-- C8: decode_varint returns none exactly when every examined byte (the
input truncated to the 10 bytes the 64-bit shift guard admits) has the
continuation bit set - input exhausted before a terminating byte, or shift
past the usize width; when it returns some (v, n), v is the integer encoded
by the first n bytes reduced modulo 2^64 - the high bits are silently
truncated, refuting the claim's "no silent truncation" part
(claim_C8_counterexample). -/
theorem claim_C8 (bs : List Nat) :
    (Listpack.decode_varint bs = none ↔
      ∀ b ∈ bs.take 10, b &&& VARINT_CONT_MASK ≠ 0) ∧
    ∀ v n, Listpack.decode_varint bs = some (v, n) →
      v = varintValue (bs.take n) % 2 ^ 64 := by
  exact ⟨decode_varint_none_iff bs, fun v n h => decode_varint_some_val bs v n h⟩

/-- C8 witness: a two-byte varint decodes to its encoded value, which the
theorem relates to the ideal value of the consumed bytes. -/
theorem claim_C8_witness :
    Listpack.decode_varint [133, 1] = some (133, 2) ∧
    (133 : Nat) = varintValue ([133, 1].take 2) % 2 ^ 64 := by
  exact ⟨by decide, (claim_C8 [133, 1]).2 133 2 (by decide)⟩

/-- C8 counterexample: ten bytes encoding 2^64 decode to some (0, 10) - the
value is truncated modulo 2^64 rather than rejected or returned exactly. -/
theorem claim_C8_counterexample :
    Listpack.decode_varint (List.replicate 9 128 ++ [2]) = some (0, 10) ∧
    varintValue ((List.replicate 9 128 ++ [2]).take 10) = 2 ^ 64 := by
  constructor
  · decide
  · decide

/- ### Claim C9 -/

theorem backScan_succ (data : List Nat) (i : Nat) :
    backScan data (i + 1)
      = if data.getD (i + 1) 0 &&& VARINT_CONT_MASK ≠ 0 then backScan data i
        else i + 1 := rfl

/-- C9: there is a Listpack built by push_back (here a single entry [97, 98],
two ASCII bytes with the high bit clear) on which the reverse iterator's
next_back returns a byte slice different from the last entry's payload as
returned by get(len() - 1): the backward continuation-bit scan stops inside
the payload and misreads payload bytes as a length header. -/
theorem claim_C9 :
    ((Listpack.new.push_back [97, 98]).2.iter.next_back).1
      ≠ (Listpack.new.push_back [97, 98]).2.get
          ((Listpack.new.push_back [97, 98]).2.len - 1) := by
  have hgv : goodVal [97, 98] := ⟨by norm_num, Or.inl (by norm_num)⟩
  have hwf : WF (Listpack.new.push_back [97, 98]).2 [[97, 98]] :=
    push_back_WF Listpack.new [] [97, 98] new_WF hgv
  set lp := (Listpack.new.push_back [97, 98]).2 with hlp
  have hget : lp.get 0 = some [97, 98] := by
    rw [get_spec _ _ hwf]
    rfl
  obtain ⟨⟨pre, post, hdata, hhead, htail, hnum⟩, -⟩ := hwf
  have hE : encEntries [[97, 98]] = [2, 97, 98] := by
    rw [encEntries_cons, encEntries_nil, List.append_nil]
    unfold encEntry
    rw [show ([97, 98] : List Nat).length = 2 from rfl, lenHeader_lt_128 2 (by norm_num)]
    rfl
  rw [hE] at hdata
  rw [show (encEntries [[97, 98]]).length = 3 from by rw [hE]; rfl] at htail
  have htail4 : lp.tail = lp.head + 4 := by omega
  have hdata' : lp.data = pre ++ ([2, 97, 98] ++ (LP_EOF :: post)) := by
    rw [hdata]
    simp only [List.append_assoc, List.singleton_append]
  have hdrop2 : lp.data.drop (lp.head + 2) = 98 :: LP_EOF :: post := by
    rw [hdata', hhead, drop_append_add pre ([2, 97, 98] ++ (LP_EOF :: post)) 2]
    rfl
  have hdrop3 : lp.data.drop (lp.head + 3) = LP_EOF :: post := by
    rw [hdata', hhead, drop_append_add pre ([2, 97, 98] ++ (LP_EOF :: post)) 3]
    rfl
  have hg2 : lp.data.getD (lp.head + 2) 0 = 98 := by
    rw [getD_eq_drop_headD, hdrop2]
    rfl
  have hbs : backScan lp.data (lp.head + 2) = lp.head + 2 := by
    rw [show lp.head + 2 = (lp.head + 1) + 1 from rfl, backScan_succ]
    rw [show lp.head + 1 + 1 = lp.head + 2 from rfl, hg2]
    rw [if_neg (by decide)]
  have hlen1 : lp.len = 1 := hnum
  unfold ListpackIter.next_back
  simp only [Listpack.iter]
  rw [if_neg (by omega)]
  rw [show lp.tail - 2 = lp.head + 2 from by omega, hbs]
  rw [show lp.tail - (lp.head + 2) = 2 from by omega]
  rw [hdrop2]
  rw [show (98 :: LP_EOF :: post).take 2 = [98, LP_EOF] from rfl]
  rw [show Listpack.decode_varint [98, LP_EOF] = some (98, 1) from by decide]
  dsimp only
  rw [show lp.head + 2 + 1 = lp.head + 3 from by omega, hdrop3]
  rw [show lp.len - 1 = 0 from by omega]
  rw [hget]
  intro hcontra
  rw [show (LP_EOF :: post).take 98 = LP_EOF :: post.take 97 from rfl] at hcontra
  simp only [Option.some.injEq] at hcontra
  have := congrArg (fun l => l.headD 0) hcontra
  simp [LP_EOF] at this

/- ### Claim C10 -/

/-- C10: on any well-formed state a freshly constructed iterator's size_hint
is (tail - head, some (tail - head)) - the live-region byte length including
the terminator - and this is strictly greater than the number of entries the
iterator will yield, so the exact-size length the iterator reports never
equals the number of remaining elements. -/
theorem claim_C10 (lp : Listpack) (es : List (List Nat)) (hwf : WF lp es) :
    lp.iter.size_hint = (lp.tail - lp.head, some (lp.tail - lp.head)) ∧
    iterYieldCount lp.iter.data lp.iter.pos lp.iter.endPos < lp.tail - lp.head := by
  constructor
  · rfl
  · obtain ⟨⟨pre, post, hdata, hhead, htail, hnum⟩, -⟩ := hwf
    have hd1 : lp.data.drop (lp.tail - 1) = LP_EOF :: post := by
      rw [hdata]
      rw [show pre ++ encEntries es ++ [LP_EOF] ++ post
          = (pre ++ encEntries es) ++ (LP_EOF :: post) from by
        simp only [List.append_assoc, List.singleton_append]]
      rw [show lp.tail - 1 = (pre ++ encEntries es).length from by
        simp only [List.length_append]; omega]
      rw [List.drop_left]
    have hE : lp.data.getD (lp.tail - 1) 0 = LP_EOF := by
      rw [getD_eq_drop_headD, hd1]
      rfl
    have hb := iterYieldCount_le lp.data lp.tail hE lp.head
    have hlt : lp.head < lp.tail := by omega
    show iterYieldCount lp.data lp.head lp.tail < lp.tail - lp.head
    omega

/-- C10 witness: the empty Listpack's fresh iterator reports size hint
(1, some 1) while it will yield no element. -/
theorem claim_C10_witness :
    WF Listpack.new [] ∧
    Listpack.new.iter.size_hint
      = (Listpack.new.tail - Listpack.new.head, some (Listpack.new.tail - Listpack.new.head)) ∧
    iterYieldCount Listpack.new.iter.data Listpack.new.iter.pos Listpack.new.iter.endPos
      < Listpack.new.tail - Listpack.new.head :=
  ⟨new_WF, claim_C10 Listpack.new [] new_WF⟩
